import Mathlib

/-!
Verification development for the GPU-CoDaSHEP-Princeton repository.

Part A embeds the notebook helper functions of src/06/gpu_dd4hep_tilecal.ipynb
(the run_tile subprocess wrapper and the geometry/macro download loop).

Part B models the Unified Memory Residency and Migration Engine together with
the Launch Configuration Advisor described by the specification; the engine has
no implementation under src/, so its definitions are modelled from the words of
the specification (sections 3 to 5 and 4.3).
-/

namespace GpuRepo

/-! ## Part A1: the run_tile helper of src/06/gpu_dd4hep_tilecal.ipynb

The Python code is:

  def run_tile(use_gpu: bool = True):
      env = os.environ.copy()
      env["CELER_DISABLE_DEVICE"] = "0" if use_gpu else "1"
      start = time.time()
      output = subprocess.check_output(["./tile_gpu"], text=True, env=env)
      dt = time.time() - start
      m = re.search(r"Run summary: *(\d+) events", output)
      nev = int(m.group(1)) if m else 1000
      return dt, nev

We embed the captured standard output as a list of characters and model the
regular-expression search directly: scan left to right; at each position try
to match the literal "Run summary:", then zero or more spaces, then a maximal
nonempty digit run, then the literal " events".  Because a space is not a
digit, the greedy digit run of the regular expression coincides with the
maximal digit run, so no backtracking is needed.
-/

/-- Consume a leading run of space characters. -/
def skipSpaces : List Char → List Char
  | ' ' :: rest => skipSpaces rest
  | l => l

/-- Split off the maximal leading run of decimal digits. -/
def takeDigits : List Char → List Char × List Char
  | [] => ([], [])
  | c :: rest =>
      if c.isDigit then
        let p := takeDigits rest
        (c :: p.1, p.2)
      else ([], c :: rest)

/-- Decimal value of a digit run, leftmost digit most significant
(the semantics of Python int on the captured group). -/
def digitsToNat (ds : List Char) : Nat :=
  ds.foldl (fun a c => a * 10 + (c.toNat - '0'.toNat)) 0

/-- Match a literal character sequence at the head of the input, returning the
rest of the input on success. -/
def stripLit : List Char → List Char → Option (List Char)
  | [], l => some l
  | _ :: _, [] => none
  | p :: ps, c :: cs => if c = p then stripLit ps cs else none

/-- Try to match the pattern of the regular expression
"Run summary: *(\d+) events" anchored at the head of the input, returning the
captured integer. -/
def matchSummaryAt (l : List Char) : Option Nat :=
  match stripLit ("Run summary:".toList) l with
  | none => none
  | some r1 =>
      let r2 := skipSpaces r1
      let p := takeDigits r2
      if p.1.isEmpty then none
      else
        match stripLit (" events".toList) p.2 with
        | none => none
        | some _ => some (digitsToNat p.1)

/-- re.search semantics: the leftmost position where the pattern matches. -/
def findRunSummary : List Char → Option Nat
  | [] => none
  | c :: rest =>
      match matchSummaryAt (c :: rest) with
      | some n => some n
      | none => findRunSummary rest

/-- The value run_tile stores in env["CELER_DISABLE_DEVICE"]:
"0" if use_gpu else "1". -/
def runTileEnvValue (use_gpu : Bool) : String :=
  if use_gpu then "0" else "1"

/-- The event count run_tile returns:
nev = int(m.group(1)) if m else 1000. -/
def runTileEvents (output : List Char) : Nat :=
  match findRunSummary output with
  | some n => n
  | none => 1000

/-! ## Part A2: the geometry/macro download loop of
src/06/gpu_dd4hep_tilecal.ipynb

The Python code is:

  for fname, url in files.items():
      if not pathlib.Path(fname).exists():
          print(f"Downloading ...")
          urllib.request.urlretrieve(url, fname)
      else:
          print(f"... already present")

The working directory is embedded as an association list of file names and
contents; urlretrieve is embedded as an abstract fetch function from url to
contents, and the loop returns the updated directory together with the number
of urlretrieve calls it performed. -/

/-- pathlib.Path(fname).exists() over the embedded directory. -/
def fileExists (fs : List (String × String)) (name : String) : Bool :=
  fs.any (fun e => e.1 == name)

/-- The download loop: one (fname, url) table entry at a time, calling fetch
(urlretrieve) only when no file with that name exists.  Returns the directory
and the number of downloads performed. -/
def downloadCell (fetch : String → String) :
    List (String × String) → List (String × String) →
    List (String × String) × Nat
  | fs, [] => (fs, 0)
  | fs, e :: rest =>
      if fileExists fs e.1 then downloadCell fetch fs rest
      else
        let p := downloadCell fetch ((e.1, fetch e.2) :: fs) rest
        (p.1, p.2 + 1)

/-- The directory only gains entries as the loop runs. -/
theorem fileExists_downloadCell (fetch : String → String)
    (entries : List (String × String)) :
    ∀ fs name, fileExists fs name = true →
      fileExists (downloadCell fetch fs entries).1 name = true := by
  induction entries with
  | nil => intro fs name hn; simpa [downloadCell] using hn
  | cons e rest ih =>
      intro fs name hn
      by_cases he : fileExists fs e.1 = true
      · simpa [downloadCell, he] using ih fs name hn
      · have hn' : fileExists ((e.1, fetch e.2) :: fs) name = true := by
          simp [fileExists] at hn ⊢
          exact Or.inr hn
        simp only [downloadCell, he, if_false, Bool.false_eq_true]
        exact ih _ name hn'

/-- After the loop, every table entry has a file with its name. -/
theorem downloadCell_covers (fetch : String → String)
    (entries : List (String × String)) :
    ∀ fs, ∀ e ∈ entries, fileExists (downloadCell fetch fs entries).1 e.1 = true := by
  induction entries with
  | nil => intro fs e he; simp at he
  | cons a rest ih =>
      intro fs e he
      rcases List.mem_cons.mp he with he | he
      · subst he
        by_cases ha : fileExists fs e.1 = true
        · simp only [downloadCell, ha, if_true]
          exact fileExists_downloadCell fetch rest fs e.1 ha
        · simp only [downloadCell, ha, if_false, Bool.false_eq_true]
          refine fileExists_downloadCell fetch rest _ e.1 ?_
          simp [fileExists]
      · by_cases ha : fileExists fs a.1 = true
        · simp only [downloadCell, ha, if_true]
          exact ih fs e he
        · simp only [downloadCell, ha, if_false, Bool.false_eq_true]
          exact ih _ e he

/-- When every table entry already has a file, the loop downloads nothing and
leaves the directory untouched. -/
theorem downloadCell_noop (fetch : String → String)
    (entries : List (String × String)) (fs : List (String × String))
    (hall : ∀ e ∈ entries, fileExists fs e.1 = true) :
    downloadCell fetch fs entries = (fs, 0) := by
  induction entries with
  | nil => rfl
  | cons a rest ih =>
      have ha : fileExists fs a.1 = true := hall a (by simp)
      simp only [downloadCell, ha, if_true]
      exact ih (fun e he => hall e (by simp [he]))

/-- Claim C9: for every execution of the notebook helper run_tile, if the
captured standard output of ./tile_gpu contains no text matching the pattern
"Run summary: <n> events", the returned event count is exactly 1000;
otherwise it is the integer captured by that pattern, and the environment
variable CELER_DISABLE_DEVICE is set to "1" exactly when use_gpu is false. -/
theorem run_tile_event_count (output : List Char) (use_gpu : Bool) :
    (findRunSummary output = none → runTileEvents output = 1000) ∧
    (∀ n, findRunSummary output = some n → runTileEvents output = n) ∧
    (runTileEnvValue use_gpu = "1" ↔ use_gpu = false) := by
  refine ⟨fun hn => ?_, fun n hn => ?_, ?_⟩
  · simp [runTileEvents, hn]
  · simp [runTileEvents, hn]
  · cases use_gpu <;> simp [runTileEnvValue]

/-- Witness for C9 at concrete outputs: one output carrying a run summary of
42 events, one carrying none, and both values of use_gpu. -/
theorem run_tile_event_count_witness :
    runTileEvents ("ini Run summary:  42 events done".toList) = 42 ∧
    runTileEvents ("no summary printed".toList) = 1000 ∧
    runTileEnvValue false = "1" ∧ runTileEnvValue true = "0" := by
  refine ⟨?_, ?_, ?_, ?_⟩
  · exact (run_tile_event_count ("ini Run summary:  42 events done".toList) true).2.1
      42 (by decide)
  · exact (run_tile_event_count ("no summary printed".toList) true).1 (by decide)
  · exact (run_tile_event_count [] false).2.2.mpr rfl
  · decide

/-- Claim C10: for every entry in the geometry/macro download table, the
download loop calls urlretrieve only when no file with that name exists in
the working directory; consequently running the download cell a second time
with the same table performs zero downloads and leaves every previously
fetched file unchanged. -/
theorem download_idempotent (fetch : String → String)
    (entries fs : List (String × String)) :
    ((∀ e ∈ entries, fileExists fs e.1 = true) →
        downloadCell fetch fs entries = (fs, 0)) ∧
    downloadCell fetch (downloadCell fetch fs entries).1 entries =
      ((downloadCell fetch fs entries).1, 0) := by
  constructor
  · exact downloadCell_noop fetch entries fs
  · exact downloadCell_noop fetch entries (downloadCell fetch fs entries).1
      (fun e he => downloadCell_covers fetch entries fs e he)

/-- Witness for C10 on a concrete two-entry table starting from an empty
working directory: the second run performs zero downloads. -/
theorem download_idempotent_witness :
    (downloadCell (fun _ => "payload") []
        [("TileTB.gdml", "urlA"), ("TBrun_elec.mac", "urlB")]).2 = 2 ∧
    downloadCell (fun _ => "payload")
        [("TBrun_elec.mac", "payload"), ("TileTB.gdml", "payload")]
        [("TileTB.gdml", "urlA"), ("TBrun_elec.mac", "urlB")] =
      ([("TBrun_elec.mac", "payload"), ("TileTB.gdml", "payload")], 0) := by
  constructor
  · decide
  · exact (download_idempotent (fun _ => "payload")
      [("TileTB.gdml", "urlA"), ("TBrun_elec.mac", "urlB")]
      [("TBrun_elec.mac", "payload"), ("TileTB.gdml", "payload")]).1 (by decide)

/-! ## Part B: the Unified Memory Residency and Migration Engine

The engine described by the specification has no implementation under src/
(the notebooks only exercise the real CUDA runtime through shell commands),
so every definition in this part is modelled from the words of the
specification. -/

/-- Modelled from the spec: the error kinds of section 7 of the
specification (the engine itself is missing from src/). -/
inductive EngineError where
  | InvalidSize
  | UseAfterFree
  | NoDevice
  | UnknownRun
deriving DecidableEq

/-- Modelled from the spec: a device of the Device Topology, with identity,
parallel-execution-unit count and minimum efficient thread-grouping size
(missing from src/; the data model of section 3). Device identity 0 denotes
the host. -/
structure DeviceInfo where
  id : Nat
  units : Nat
  grouping : Nat
deriving DecidableEq

/-- Modelled from the spec: a LaunchConfig of the Launch Configuration
Advisor (missing from src/): grid size, block size, target device. -/
structure LaunchConfig where
  grid : Nat
  block : Nat
  device : Nat
deriving DecidableEq

/-- The tunable block-size factor of section 4.3, default 4. -/
def blockFactor : Nat := 4

/-- Modelled from the spec: propose(elementCount, device) of the Launch
Configuration Advisor (missing from src/).  Block size is the device
grouping size times blockFactor; grid size is ceil(elementCount / block),
rounded up to the nearest multiple of the execution-unit count when doing so
does not push total launched threads beyond elementCount * 2; fails with
NoDevice when the device is absent from the topology. -/
def propose (topo : List DeviceInfo) (elementCount : Nat) (devId : Nat) :
    Except EngineError LaunchConfig :=
  match topo.find? (fun dv => dv.id == devId) with
  | none => .error .NoDevice
  | some dv =>
      let block := dv.grouping * blockFactor
      let grid0 := (elementCount + block - 1) / block
      let rounded := ((grid0 + dv.units - 1) / dv.units) * dv.units
      .ok { grid := if rounded * block ≤ elementCount * 2 then rounded else grid0,
            block := block, device := devId }

/-- Ceiling division times the divisor dominates the dividend. -/
theorem le_ceil_mul (n b : Nat) (hb : 0 < b) : n ≤ (n + b - 1) / b * b := by
  have hdm := Nat.div_add_mod (n + b - 1) b
  have hr : (n + b - 1) % b < b := Nat.mod_lt _ hb
  rw [Nat.mul_comm]
  generalize hq : b * ((n + b - 1) / b) = m at hdm
  omega

/-- Claim C5: for every elementCount > 0 and every device present in the
topology (with the positive unit and grouping counts of real hardware),
propose returns a LaunchConfig whose block size is a positive multiple of the
device minimum grouping size, whose grid size G satisfies
G * blockSize >= elementCount, and where the grid is rounded up to a multiple
of the device execution-unit count only when total launched threads do not
exceed elementCount * 2. -/
theorem propose_launch_config (topo : List DeviceInfo) (elementCount devId : Nat)
    (dv : DeviceInfo) (cfg : LaunchConfig)
    (hpos : 0 < elementCount)
    (hfind : topo.find? (fun d => d.id == devId) = some dv)
    (hu : 0 < dv.units) (hg : 0 < dv.grouping)
    (hok : propose topo elementCount devId = .ok cfg) :
    (∃ m, 0 < m ∧ cfg.block = dv.grouping * m) ∧ 0 < cfg.block ∧
    elementCount ≤ cfg.grid * cfg.block ∧
    (cfg.grid ≠ (elementCount + cfg.block - 1) / cfg.block →
      cfg.grid % dv.units = 0 ∧ cfg.grid * cfg.block ≤ elementCount * 2) := by
  have hb : 0 < dv.grouping * blockFactor := by
    have : 0 < blockFactor := by decide
    exact Nat.mul_pos hg this
  simp only [propose, hfind] at hok
  set block := dv.grouping * blockFactor with hblock
  set grid0 := (elementCount + block - 1) / block with hgrid0
  set rounded := ((grid0 + dv.units - 1) / dv.units) * dv.units with hrounded
  have hcfg : cfg = { grid := if rounded * block ≤ elementCount * 2 then rounded
                              else grid0,
                      block := block, device := devId } := by
    exact (Except.ok.injEq _ _).mp hok.symm |>.symm ▸ rfl
  have hcb : cfg.block = block := by rw [hcfg]
  have hge0 : elementCount ≤ grid0 * block := le_ceil_mul elementCount block hb
  have hg0r : grid0 ≤ rounded := by
    have := le_ceil_mul grid0 dv.units hu
    exact this
  refine ⟨⟨blockFactor, by decide, hcb⟩, by rw [hcb]; exact hb, ?_, ?_⟩
  · rw [hcfg]
    by_cases hc : rounded * block ≤ elementCount * 2
    · simp only [hc, if_true]
      exact le_trans hge0 (Nat.mul_le_mul_right block hg0r)
    · simp only [hc, if_false]
      exact hge0
  · intro hne
    rw [hcb] at hne
    rw [hcfg] at hne ⊢
    by_cases hc : rounded * block ≤ elementCount * 2
    · simp only [hc, if_true] at hne ⊢
      exact ⟨Nat.mul_mod_left _ _, trivial⟩
    · simp only [hc, if_false] at hne
      exact absurd rfl hne

/-- Witness for C5 at the concrete input of the spec test property:
elementCount 1000000 on a device with 80 execution units and grouping size
32 yields block size 128 and grid size 7840 (a multiple of 80), launching
at least 1000000 threads. -/
theorem propose_launch_config_witness :
    propose [⟨0, 80, 32⟩] 1000000 0 = .ok ⟨7840, 128, 0⟩ ∧
    ((∃ m, 0 < m ∧ (128 : Nat) = 32 * m) ∧ 0 < (128 : Nat) ∧
      1000000 ≤ 7840 * (128 : Nat) ∧
      ((7840 : Nat) ≠ (1000000 + 128 - 1) / 128 →
        (7840 : Nat) % 80 = 0 ∧ 7840 * (128 : Nat) ≤ 1000000 * 2)) := by
  constructor
  · rfl
  · have h := propose_launch_config [⟨0, 80, 32⟩] 1000000 0 ⟨0, 80, 32⟩
      ⟨7840, 128, 0⟩ (by decide) (by decide) (by decide) (by decide) rfl
    exact h

/-! ### The Memory Region Tracker and Migration Scheduler

Modelled from the spec, sections 3 to 5 (missing from src/).  Devices are
identified by naturals, 0 being the host.  A page records its resident
device (none meaning unresident), a version counter incremented on each
migration, and a dirty flag set when a write access faults it in.  On-demand
faults are synchronous, so only prefetch operations stay in flight; an
in-flight operation records the page versions it installed, and a later
migration of any of its pages makes it stale, at which point it is pruned
(this realises the rule that no two operations for the same page are in
flight concurrently, enforced through the version counter). -/

/-- The fixed page size of the data model, in bytes. -/
def pageSize : Nat := 4096

/-- Modelled from the spec: a Page of a MemoryRegion (missing from src/). -/
structure Page where
  resident : Option Nat
  version : Nat
  dirty : Bool
deriving DecidableEq

/-- A freshly allocated, unresident page. -/
def freshPage : Page := { resident := none, version := 0, dirty := false }

/-- Modelled from the spec: a MemoryRegion (missing from src/): byte size and
ordered sequence of page states. -/
structure MemoryRegion where
  sizeBytes : Nat
  pages : List Page
deriving DecidableEq

/-- A byte range touched by an access or prefetch: start offset and length. -/
structure ByteRange where
  start : Nat
  len : Nat
deriving DecidableEq

/-- Whether page index i overlaps the byte range r. -/
def pageOverlaps (i : Nat) (r : ByteRange) : Bool :=
  decide (r.start < (i + 1) * pageSize ∧ i * pageSize < r.start + r.len)

/-- First page index overlapping the range. -/
def rangeLo (r : ByteRange) : Nat := r.start / pageSize

/-- One past the last page index overlapping the range. -/
def rangeHi (r : ByteRange) : Nat :=
  if r.start + r.len = 0 then 0 else (r.start + r.len - 1) / pageSize + 1

/-- The pages of a region of n pages overlapping the byte range r, in
ascending order. -/
def pagesInRange (r : ByteRange) (n : Nat) : List Nat :=
  List.range' (rangeLo r) (min (rangeHi r) n - rangeLo r)

/-- Modelled from the spec: the trigger kinds of a MigrationOp (missing from
src/): on-demand fault or explicit prefetch. -/
inductive TriggerKind where
  | onDemand
  | prefetched
deriving DecidableEq

/-- Modelled from the spec: a MigrationOp (missing from src/): source and
destination device, the region handle, an ordered contiguous run of page
indices, the page versions it installed, and its trigger kind. -/
structure MigrationOp where
  opId : Nat
  src : Option Nat
  dst : Nat
  handle : Nat
  pageIdxs : List Nat
  pageVersions : List Nat
  trigger : TriggerKind
deriving DecidableEq

/-- Modelled from the spec: the per-run counters of the Profile Recorder
(missing from src/): operation counts per trigger kind and migrated bytes
per direction. -/
structure Profile where
  onDemandOps : Nat
  prefetchOps : Nat
  bytesToDevice : Nat
  bytesToHost : Nat
deriving DecidableEq

/-- Modelled from the spec: the engine state (missing from src/): handle
counter, operation-id counter, the live regions, the in-flight prefetch
operations, and the profile counters. -/
structure Engine where
  nextHandle : Nat
  nextOpId : Nat
  regions : Nat → Option MemoryRegion
  inFlight : List MigrationOp
  profile : Profile

/-- The engine at process start: no regions, nothing in flight. -/
def Engine.init : Engine :=
  { nextHandle := 0, nextOpId := 0, regions := fun _ => none,
    inFlight := [], profile := ⟨0, 0, 0, 0⟩ }

/-- Point update of the region map. -/
def setRegion (f : Nat → Option MemoryRegion) (h : Nat)
    (v : Option MemoryRegion) : Nat → Option MemoryRegion :=
  fun h' => if h' = h then v else f h'

/-- Whether page i of the page list must fault to be used by device d:
it exists and is not resident on d. -/
def needsFault (pgs : List Page) (d i : Nat) : Bool :=
  match pgs[i]? with
  | some pg => decide (pg.resident ≠ some d)
  | none => false

/-- Whether page i of region h is covered by an in-flight operation whose
destination is d. -/
def midMigration (fl : List MigrationOp) (h d i : Nat) : Bool :=
  fl.any (fun op => op.handle == h && op.dst == d && op.pageIdxs.contains i)

/-- Migrate the selected pages to device d: set the resident device,
increment the version counter, and set the dirty flag on a write. -/
def bumpPage (d : Nat) (w : Bool) (pg : Page) : Page :=
  { resident := some d, version := pg.version + 1, dirty := pg.dirty || w }

/-- Apply f to the pages whose index (counted from base k) is selected. -/
def updateFrom (sel : List Nat) (f : Page → Page) : Nat → List Page → List Page
  | _, [] => []
  | k, pg :: rest =>
      (if k ∈ sel then f pg else pg) :: updateFrom sel f (k + 1) rest

/-- Apply f to the pages at the selected indices. -/
def updatePages (sel : List Nat) (f : Page → Page) (pgs : List Page) :
    List Page :=
  updateFrom sel f 0 pgs

/-- Prepend index i to a run decomposition: it joins the first run when that
run starts at i + 1, and opens a fresh run otherwise. -/
def coalesceCons (i : Nat) : List (List Nat) → List (List Nat)
  | (j :: run) :: runs =>
      if j = i + 1 then (i :: j :: run) :: runs
      else [i] :: (j :: run) :: runs
  | runs => [i] :: runs

/-- Batching rule of section 4.2: group a list of page indices into maximal
contiguous runs. -/
def coalesce : List Nat → List (List Nat)
  | [] => []
  | i :: rest => coalesceCons i (coalesce rest)

/-- Build one MigrationOp for a contiguous run: the source is the resident
device of the first page of the run, and the recorded versions are the
versions the migration installs. -/
def mkOp (oid h d : Nat) (tk : TriggerKind) (pgs : List Page)
    (run : List Nat) : MigrationOp :=
  { opId := oid, handle := h, dst := d, trigger := tk,
    src := match run with
           | [] => none
           | i :: _ => match pgs[i]? with
                       | some pg => pg.resident
                       | none => none,
    pageIdxs := run,
    pageVersions := run.map (fun i =>
      match pgs[i]? with
      | some pg => pg.version + 1
      | none => 0) }

/-- One MigrationOp per contiguous run, with consecutive operation ids. -/
def mkOps (oid h d : Nat) (tk : TriggerKind) (pgs : List Page) :
    List (List Nat) → List MigrationOp
  | [] => []
  | run :: rest => mkOp oid h d tk pgs run :: mkOps (oid + 1) h d tk pgs rest

/-- Total page count of a batch of operations. -/
def opPageCount (ops : List MigrationOp) : Nat :=
  (ops.map (fun op => op.pageIdxs.length)).sum

/-- Record a batch of operations with the Profile Recorder: bump the counter
of the trigger kind and the byte total of the transfer direction (toward the
host when the destination is device 0). -/
def recordOps (pr : Profile) (tk : TriggerKind) (d : Nat)
    (ops : List MigrationOp) : Profile :=
  { onDemandOps := pr.onDemandOps +
      (match tk with | .onDemand => ops.length | .prefetched => 0),
    prefetchOps := pr.prefetchOps +
      (match tk with | .onDemand => 0 | .prefetched => ops.length),
    bytesToDevice := pr.bytesToDevice +
      (if d == 0 then 0 else opPageCount ops * pageSize),
    bytesToHost := pr.bytesToHost +
      (if d == 0 then opPageCount ops * pageSize else 0) }

/-- Whether an in-flight operation is still fresh: its region is live and
every page it covers still holds the version and residency the operation
installed.  A migration of any covered page bumps that version and makes the
operation stale. -/
def opFresh (s : Engine) (op : MigrationOp) : Bool :=
  match s.regions op.handle with
  | none => false
  | some reg =>
      op.pageIdxs.length == op.pageVersions.length &&
      (op.pageIdxs.zip op.pageVersions).all (fun iv =>
        match reg.pages[iv.1]? with
        | some pg => pg.version == iv.2 && pg.resident == some op.dst
        | none => false)

/-- Drop stale in-flight operations (cancellation on free, supersession on
migration). -/
def pruneStale (s : Engine) : Engine :=
  { s with inFlight := s.inFlight.filter (fun op => opFresh s op) }

/-- Modelled from the spec: allocate(size) of the Memory Region Tracker
(missing from src/): fails with InvalidSize when size is not positive,
otherwise creates a region whose pages are all unresident. -/
def allocate (s : Engine) (size : Int) : Except EngineError (Nat × Engine) :=
  if size ≤ 0 then .error .InvalidSize
  else
    .ok (s.nextHandle, pruneStale
      { nextHandle := s.nextHandle + 1, nextOpId := s.nextOpId,
        regions := setRegion s.regions s.nextHandle
          (some { sizeBytes := size.toNat,
                  pages := List.replicate
                    ((size.toNat + pageSize - 1) / pageSize) freshPage }),
        inFlight := s.inFlight, profile := s.profile })

/-- Modelled from the spec: the access kinds of an AccessEvent (missing from
src/). -/
inductive AccessKind where
  | read
  | write
deriving DecidableEq, BEq

/-- The pages an access by device d must fault in: the touched pages not
resident on d. -/
def faultingPages (reg : MemoryRegion) (d : Nat) (r : ByteRange) : List Nat :=
  (pagesInRange r reg.pages.length).filter (fun i => needsFault reg.pages d i)

/-- Modelled from the spec: access(handle, byteRange, device, kind) of the
Memory Region Tracker (missing from src/).  Faults every touched page not
resident on the device, batches contiguous faulting pages into single
on-demand MigrationOps, moves the pages to the device with a version
increment, records the operations with the Profile Recorder, completes the
in-flight prefetches this access observes, and fails with UseAfterFree on a
freed (or unknown) handle. -/
def access (s : Engine) (h : Nat) (r : ByteRange) (d : Nat)
    (k : AccessKind) : Except EngineError (List MigrationOp × Engine) :=
  match s.regions h with
  | none => .error .UseAfterFree
  | some reg =>
      let touched := pagesInRange r reg.pages.length
      let faulting := faultingPages reg d r
      let ops := mkOps s.nextOpId h d .onDemand reg.pages (coalesce faulting)
      let s₁ : Engine :=
        { nextHandle := s.nextHandle,
          nextOpId := s.nextOpId + ops.length,
          regions := setRegion s.regions h
            (some { reg with
                    pages := updatePages faulting
                      (bumpPage d (k == AccessKind.write)) reg.pages }),
          inFlight := s.inFlight.filter (fun op =>
            !(op.handle == h && op.dst == d &&
              op.pageIdxs.all (fun i => touched.contains i))),
          profile := recordOps s.profile .onDemand d ops }
      .ok (ops, pruneStale s₁)

/-- The pages a prefetch to device d must move: the touched pages not
resident on d and not already mid-migration to d. -/
def prefetchCands (s : Engine) (reg : MemoryRegion) (h : Nat) (r : ByteRange)
    (d : Nat) : List Nat :=
  (pagesInRange r reg.pages.length).filter (fun i =>
    needsFault reg.pages d i && !(midMigration s.inFlight h d i))

/-- Modelled from the spec: prefetch(handle, byteRange, device) of the
Migration Scheduler (missing from src/).  Returns none when every touched
page is already resident on the device or mid-migration to it; otherwise it
batches the candidate pages into one prefetch MigrationOp per maximal
contiguous run, marks them resident with a version increment, leaves the
operations in flight, and records them with the Profile Recorder. -/
def prefetch (s : Engine) (h : Nat) (r : ByteRange) (d : Nat) :
    Except EngineError (Option (List MigrationOp) × Engine) :=
  match s.regions h with
  | none => .error .UseAfterFree
  | some reg =>
      let cands := prefetchCands s reg h r d
      if cands.isEmpty then .ok (none, s)
      else
        let ops := mkOps s.nextOpId h d .prefetched reg.pages (coalesce cands)
        let s₁ : Engine :=
          { nextHandle := s.nextHandle,
            nextOpId := s.nextOpId + ops.length,
            regions := setRegion s.regions h
              (some { reg with pages := updatePages cands (bumpPage d false) reg.pages }),
            inFlight := s.inFlight ++ ops,
            profile := recordOps s.profile .prefetched d ops }
        .ok (some ops, pruneStale s₁)

/-- Modelled from the spec: free(handle) of the Memory Region Tracker
(missing from src/): releases the region; the in-flight prefetches of the
region are silently dropped by the staleness prune; fails with UseAfterFree
on an already freed (or unknown) handle. -/
def free (s : Engine) (h : Nat) : Except EngineError Engine :=
  match s.regions h with
  | none => .error .UseAfterFree
  | some _ => .ok (pruneStale { s with regions := setRegion s.regions h none })

/-- One completed engine operation. -/
inductive Step : Engine → Engine → Prop where
  | alloc (s : Engine) (sz : Int) (h : Nat) (s' : Engine) :
      allocate s sz = .ok (h, s') → Step s s'
  | acc (s : Engine) (h : Nat) (r : ByteRange) (d : Nat) (k : AccessKind)
      (ops : List MigrationOp) (s' : Engine) :
      access s h r d k = .ok (ops, s') → Step s s'
  | pref (s : Engine) (h : Nat) (r : ByteRange) (d : Nat)
      (res : Option (List MigrationOp)) (s' : Engine) :
      prefetch s h r d = .ok (res, s') → Step s s'
  | fr (s : Engine) (h : Nat) (s' : Engine) :
      free s h = .ok s' → Step s s'

/-- States the engine can reach from process start. -/
def Reachable (s : Engine) : Prop :=
  Relation.ReflTransGen Step Engine.init s

/-! ### Basic lemmas about the page enumeration, page updates, and batching -/

/-- Membership in the page enumeration is exactly byte overlap within the
region. -/
theorem mem_pagesInRange (r : ByteRange) (n i : Nat) :
    i ∈ pagesInRange r n ↔ (pageOverlaps i r = true ∧ i < n) := by
  unfold pagesInRange pageOverlaps rangeLo rangeHi pageSize
  rw [List.mem_range'_1, decide_eq_true_eq]
  by_cases h0 : r.start + r.len = 0 <;> simp only [h0, if_true, if_false] <;> omega

/-- The page enumeration is a contiguous ascending run. -/
theorem range'_chain (c a : Nat) :
    (List.range' a c).Chain' (fun x y => y = x + 1) := by
  induction c generalizing a with
  | zero => simp
  | succ c ih =>
      rw [List.range'_succ]
      rcases c with _ | c
      · simp
      · rw [List.range'_succ, List.chain'_cons]
        exact ⟨rfl, by rw [← List.range'_succ]; exact ih (a + 1)⟩

/-- The page enumeration forms a contiguous run. -/
theorem pagesInRange_chain (r : ByteRange) (n : Nat) :
    (pagesInRange r n).Chain' (fun x y => y = x + 1) :=
  range'_chain _ _

/-- The page enumeration has no duplicates. -/
theorem pagesInRange_nodup (r : ByteRange) (n : Nat) :
    (pagesInRange r n).Nodup := by
  have h := pagesInRange_chain r n
  have hlt : (pagesInRange r n).Chain' (· < ·) :=
    h.imp (fun hab => by omega)
  have : (pagesInRange r n).Pairwise (· < ·) :=
    List.chain'_iff_pairwise.mp hlt
  exact this.imp Nat.ne_of_lt

/-- Updated page lists keep their length. -/
theorem updateFrom_length (sel : List Nat) (f : Page → Page) :
    ∀ (pgs : List Page) (k : Nat), (updateFrom sel f k pgs).length = pgs.length := by
  intro pgs
  induction pgs with
  | nil => intro k; rfl
  | cons pg rest ih => intro k; simp [updateFrom, ih (k + 1)]

/-- Element description of an updated page list. -/
theorem updateFrom_getElem? (sel : List Nat) (f : Page → Page) :
    ∀ (pgs : List Page) (k j : Nat),
      (updateFrom sel f k pgs)[j]? =
        (pgs[j]?).map (fun pg => if k + j ∈ sel then f pg else pg) := by
  intro pgs
  induction pgs with
  | nil => intro k j; simp [updateFrom]
  | cons pg rest ih =>
      intro k j
      rcases j with _ | j
      · simp [updateFrom]
      · have hk : k + (j + 1) = (k + 1) + j := by omega
        simp only [updateFrom, List.getElem?_cons_succ, ih (k + 1) j, hk]

/-- Element description of updatePages. -/
theorem updatePages_getElem? (sel : List Nat) (f : Page → Page)
    (pgs : List Page) (j : Nat) :
    (updatePages sel f pgs)[j]? =
      (pgs[j]?).map (fun pg => if j ∈ sel then f pg else pg) := by
  have := updateFrom_getElem? sel f pgs 0 j
  simpa [updatePages] using this

/-- A selected page is updated. -/
theorem updatePages_mem (sel : List Nat) (f : Page → Page)
    (pgs : List Page) (j : Nat) (pg : Page)
    (hj : j ∈ sel) (hpg : pgs[j]? = some pg) :
    (updatePages sel f pgs)[j]? = some (f pg) := by
  rw [updatePages_getElem?, hpg]
  simp [hj]

/-- A page outside the selection is untouched. -/
theorem updatePages_not_mem (sel : List Nat) (f : Page → Page)
    (pgs : List Page) (j : Nat) (hj : j ∉ sel) :
    (updatePages sel f pgs)[j]? = pgs[j]? := by
  rw [updatePages_getElem?]
  rcases hpg : pgs[j]? with _ | pg <;> simp [hj]

/-- updatePages keeps the length. -/
theorem updatePages_length (sel : List Nat) (f : Page → Page)
    (pgs : List Page) : (updatePages sel f pgs).length = pgs.length :=
  updateFrom_length sel f pgs 0

theorem coalesceCons_nil (i : Nat) : coalesceCons i [] = [[i]] := rfl

theorem coalesceCons_cons_nil (i : Nat) (runs : List (List Nat)) :
    coalesceCons i ([] :: runs) = [i] :: [] :: runs := rfl

theorem coalesceCons_cons_cons (i j : Nat) (run : List Nat)
    (runs : List (List Nat)) :
    coalesceCons i ((j :: run) :: runs) =
      if j = i + 1 then (i :: j :: run) :: runs
      else [i] :: (j :: run) :: runs := rfl

/-- Flattening the run decomposition recovers the input. -/
theorem coalesceCons_flatten (i : Nat) (rs : List (List Nat)) :
    (coalesceCons i rs).flatten = i :: rs.flatten := by
  rcases rs with _ | ⟨first, runs⟩
  · rfl
  · rcases first with _ | ⟨j, run⟩
    · rfl
    · rw [coalesceCons_cons_cons]
      split <;> simp

/-- The batching decomposition loses and reorders nothing. -/
theorem coalesce_flatten (l : List Nat) : (coalesce l).flatten = l := by
  induction l with
  | nil => rfl
  | cons i rest ih =>
      show (coalesceCons i (coalesce rest)).flatten = i :: rest
      rw [coalesceCons_flatten, ih]

/-- Batched runs are nonempty. -/
theorem coalesce_ne_nil (l : List Nat) :
    ∀ run ∈ coalesce l, run ≠ [] := by
  induction l with
  | nil => simp [coalesce]
  | cons i rest ih =>
      intro run hrun
      show run ≠ []
      rcases hcr : coalesce rest with _ | ⟨first, runs⟩ <;>
        rw [coalesce, hcr] at hrun
      · rw [coalesceCons_nil] at hrun
        simp at hrun
        simp [hrun]
      · rcases first with _ | ⟨j, jr⟩
        · rw [coalesceCons_cons_nil, List.mem_cons, List.mem_cons] at hrun
          rcases hrun with h | h | h
          · simp [h]
          · exfalso
            have hmem : ([] : List Nat) ∈ coalesce rest :=
              hcr ▸ List.mem_cons_self _ _
            exact ih [] hmem rfl
          · exact ih run (hcr ▸ List.mem_cons_of_mem _ h)
        · rw [coalesceCons_cons_cons] at hrun
          split at hrun
          · rw [List.mem_cons] at hrun
            rcases hrun with h | h
            · simp [h]
            · exact ih run (hcr ▸ List.mem_cons_of_mem _ h)
          · rw [List.mem_cons, List.mem_cons] at hrun
            rcases hrun with h | h | h
            · simp [h]
            · exact h ▸ ih (j :: jr) (hcr ▸ List.mem_cons_self _ _)
            · exact ih run (hcr ▸ List.mem_cons_of_mem _ h)

/-- Every batched run is a contiguous ascending run. -/
theorem coalesce_chain (l : List Nat) :
    ∀ run ∈ coalesce l, run.Chain' (fun a b => b = a + 1) := by
  induction l with
  | nil => simp [coalesce]
  | cons i rest ih =>
      intro run hrun
      rcases hcr : coalesce rest with _ | ⟨first, runs⟩ <;>
        rw [coalesce, hcr] at hrun
      · rw [coalesceCons_nil] at hrun
        simp at hrun
        simp [hrun]
      · rcases first with _ | ⟨j, jr⟩
        · rw [coalesceCons_cons_nil, List.mem_cons, List.mem_cons] at hrun
          rcases hrun with h | h | h
          · simp [h]
          · simp [h]
          · exact ih run (hcr ▸ List.mem_cons_of_mem _ h)
        · rw [coalesceCons_cons_cons] at hrun
          split at hrun
          · rw [List.mem_cons] at hrun
            rcases hrun with h | h
            · subst h
              rw [List.chain'_cons]
              refine ⟨by omega, ?_⟩
              exact ih (j :: jr) (hcr ▸ List.mem_cons_self _ _)
            · exact ih run (hcr ▸ List.mem_cons_of_mem _ h)
          · rw [List.mem_cons, List.mem_cons] at hrun
            rcases hrun with h | h | h
            · simp [h]
            · exact h ▸ ih (j :: jr) (hcr ▸ List.mem_cons_self _ _)
            · exact ih run (hcr ▸ List.mem_cons_of_mem _ h)

/-- Maximality of the batching: consecutive runs do not abut. -/
def RunGap (r1 r2 : List Nat) : Prop :=
  ∀ a b, r1.getLast? = some a → r2.head? = some b → b ≠ a + 1

/-- Consecutive batched runs are separated by a gap. -/
theorem coalesce_gap (l : List Nat) : (coalesce l).Chain' RunGap := by
  induction l with
  | nil => simp [coalesce]
  | cons i rest ih =>
      rcases hcr : coalesce rest with _ | ⟨first, runs⟩ <;>
        rw [coalesce, hcr] <;> rw [hcr] at ih
      · rw [coalesceCons_nil]; simp
      · rcases first with _ | ⟨j, jr⟩
        · rw [coalesceCons_cons_nil]
          rw [List.chain'_cons]
          refine ⟨?_, ih⟩
          intro a b _ hb
          simp at hb
        · rw [coalesceCons_cons_cons]
          split
          · rcases runs with _ | ⟨r2, rs⟩
            · simp
            · rw [List.chain'_cons] at ih ⊢
              refine ⟨?_, ih.2⟩
              intro a b ha hb
              have hlast : (i :: j :: jr).getLast? = (j :: jr).getLast? :=
                List.getLast?_cons_cons
              exact ih.1 a b (hlast ▸ ha) hb
          · rw [List.chain'_cons]
            refine ⟨?_, ih⟩
            intro a b ha hb
            simp at ha hb
            omega

/-- A nonempty contiguous input is batched into exactly one run. -/
theorem coalesce_single (l : List Nat) (hne : l ≠ [])
    (hch : l.Chain' (fun a b => b = a + 1)) : coalesce l = [l] := by
  induction l with
  | nil => exact absurd rfl hne
  | cons i rest ih =>
      rcases rest with _ | ⟨j, rest'⟩
      · rfl
      · rw [List.chain'_cons] at hch
        have hrec : coalesce (j :: rest') = [j :: rest'] :=
          ih (by simp) hch.2
        show coalesceCons i (coalesce (j :: rest')) = _
        rw [hrec, coalesceCons_cons_cons]
        simp [hch.1]

/-- The batching is empty exactly on the empty input. -/
theorem coalesce_eq_nil (l : List Nat) : coalesce l = [] ↔ l = [] := by
  constructor
  · intro h
    have := coalesce_flatten l
    rw [h] at this
    simpa using this.symm
  · intro h; simp [h, coalesce]

/-- The produced operations carry exactly the batched runs. -/
theorem mkOps_map_pageIdxs (h d : Nat) (tk : TriggerKind) (pgs : List Page) :
    ∀ (runs : List (List Nat)) (oid : Nat),
      (mkOps oid h d tk pgs runs).map (fun op => op.pageIdxs) = runs := by
  intro runs
  induction runs with
  | nil => intro oid; rfl
  | cons run rest ih => intro oid; simp [mkOps, mkOp, ih (oid + 1)]

/-- One operation per batched run. -/
theorem mkOps_length (h d : Nat) (tk : TriggerKind) (pgs : List Page) :
    ∀ (runs : List (List Nat)) (oid : Nat),
      (mkOps oid h d tk pgs runs).length = runs.length := by
  intro runs
  induction runs with
  | nil => intro oid; rfl
  | cons run rest ih => intro oid; simp [mkOps, ih (oid + 1)]

/-- Field description of every produced operation. -/
theorem mem_mkOps (h d : Nat) (tk : TriggerKind) (pgs : List Page) :
    ∀ (runs : List (List Nat)) (oid : Nat) (op : MigrationOp),
      op ∈ mkOps oid h d tk pgs runs →
      op.handle = h ∧ op.dst = d ∧ op.trigger = tk ∧ op.pageIdxs ∈ runs ∧
        op.pageVersions = op.pageIdxs.map (fun i =>
          match pgs[i]? with
          | some pg => pg.version + 1
          | none => 0) := by
  intro runs
  induction runs with
  | nil => intro oid op hop; simp [mkOps] at hop
  | cons run rest ih =>
      intro oid op hop
      rw [mkOps, List.mem_cons] at hop
      rcases hop with hop | hop
      · subst hop
        refine ⟨rfl, rfl, rfl, List.mem_cons_self _ _, rfl⟩
      · obtain ⟨h1, h2, h3, h4, h5⟩ := ih (oid + 1) op hop
        exact ⟨h1, h2, h3, List.mem_cons_of_mem _ h4, h5⟩

/-- mkOps is empty exactly on the empty run list. -/
theorem mkOps_eq_nil (oid h d : Nat) (tk : TriggerKind) (pgs : List Page)
    (runs : List (List Nat)) :
    mkOps oid h d tk pgs runs = [] ↔ runs = [] := by
  rcases runs with _ | ⟨run, rest⟩ <;> simp [mkOps]

/-- A page within the region does not fault exactly when it is resident on
the accessing device. -/
theorem needsFault_false_iff (pgs : List Page) (d i : Nat)
    (hi : i < pgs.length) :
    needsFault pgs d i = false ↔
      ∃ pg, pgs[i]? = some pg ∧ pg.resident = some d := by
  have hg : pgs[i]? = some pgs[i] := List.getElem?_eq_getElem hi
  simp [needsFault, hg]

/-- A page within the region faults exactly when it is not resident on the
accessing device. -/
theorem needsFault_true_iff (pgs : List Page) (d i : Nat)
    (hi : i < pgs.length) :
    needsFault pgs d i = true ↔ pgs[i].resident ≠ some d := by
  have hg : pgs[i]? = some pgs[i] := List.getElem?_eq_getElem hi
  simp [needsFault, hg]

/-- Membership in the faulting set. -/
theorem mem_faultingPages (reg : MemoryRegion) (d : Nat) (r : ByteRange)
    (i : Nat) :
    i ∈ faultingPages reg d r ↔
      i ∈ pagesInRange r reg.pages.length ∧ needsFault reg.pages d i = true := by
  simp [faultingPages, List.mem_filter]

/-- Pruning changes neither the regions nor the profile of the engine. -/
theorem pruneStale_regions (s : Engine) :
    (pruneStale s).regions = s.regions := rfl

theorem pruneStale_profile (s : Engine) :
    (pruneStale s).profile = s.profile := rfl

theorem setRegion_self (f : Nat → Option MemoryRegion) (h : Nat)
    (v : Option MemoryRegion) : setRegion f h v h = v := by
  simp [setRegion]

theorem setRegion_other (f : Nat → Option MemoryRegion) (h h' : Nat)
    (v : Option MemoryRegion) (hne : h' ≠ h) : setRegion f h v h' = f h' := by
  simp [setRegion, hne]

/-- Claim C1, residency closure: for every region, at all times, every page
resident device is either unresident or exactly one device; and for every
call access(h, r, d, kind) that completes, every page overlapping the range
r is resident on device d afterwards, with access returning the empty set of
MigrationOps exactly when every such page was already resident on d. -/
theorem access_residency_closure (s : Engine) (h : Nat) (r : ByteRange)
    (d : Nat) (k : AccessKind) (reg : MemoryRegion)
    (ops : List MigrationOp) (s' : Engine)
    (hreg : s.regions h = some reg)
    (hacc : access s h r d k = .ok (ops, s')) :
    (∀ hh rg pg, s'.regions hh = some rg → pg ∈ rg.pages →
        pg.resident = none ∨ ∃ d0, pg.resident = some d0) ∧
    (∃ reg', s'.regions h = some reg' ∧
      reg'.pages.length = reg.pages.length ∧
      ∀ i ∈ pagesInRange r reg.pages.length,
        ∃ pg, reg'.pages[i]? = some pg ∧ pg.resident = some d) ∧
    (ops = [] ↔ ∀ i ∈ pagesInRange r reg.pages.length,
        ∃ pg, reg.pages[i]? = some pg ∧ pg.resident = some d) := by
  simp only [access, hreg] at hacc
  rw [Except.ok.injEq, Prod.mk.injEq] at hacc
  obtain ⟨hops, hs'⟩ := hacc
  subst hops
  subst hs'
  refine ⟨?_, ?_, ?_⟩
  · intro hh rg pg _ _
    rcases hpg : pg.resident with _ | d0
    · exact Or.inl rfl
    · exact Or.inr ⟨d0, rfl⟩
  · refine ⟨_, by rw [pruneStale_regions]; exact setRegion_self _ _ _, ?_, ?_⟩
    · exact updatePages_length _ _ _
    · intro i hi
      have hilt : i < reg.pages.length := ((mem_pagesInRange r _ i).mp hi).2
      have hg : reg.pages[i]? = some reg.pages[i] := List.getElem?_eq_getElem hilt
      by_cases hf : needsFault reg.pages d i = true
      · have hmem : i ∈ faultingPages reg d r :=
          (mem_faultingPages reg d r i).mpr ⟨hi, hf⟩
        refine ⟨bumpPage d (k == AccessKind.write) reg.pages[i], ?_, rfl⟩
        exact updatePages_mem _ _ _ _ _ hmem hg
      · have hf' : needsFault reg.pages d i = false := by
          simpa using hf
        obtain ⟨pg, hpg, hres⟩ := (needsFault_false_iff _ d i hilt).mp hf'
        have hnot : i ∉ faultingPages reg d r := by
          rw [mem_faultingPages]
          intro hc
          rw [hc.2] at hf'
          cases hf'
        refine ⟨pg, ?_, hres⟩
        rw [updatePages_not_mem _ _ _ _ hnot, hpg]
  · rw [mkOps_eq_nil, coalesce_eq_nil]
    unfold faultingPages
    rw [List.filter_eq_nil_iff]
    constructor
    · intro hall i hi
      have hilt : i < reg.pages.length := ((mem_pagesInRange r _ i).mp hi).2
      have hf : needsFault reg.pages d i = false := by
        have := hall i hi
        simpa using this
      exact (needsFault_false_iff _ d i hilt).mp hf
    · intro hall i hi
      have hilt : i < reg.pages.length := ((mem_pagesInRange r _ i).mp hi).2
      have hf : needsFault reg.pages d i = false :=
        (needsFault_false_iff _ d i hilt).mpr (hall i hi)
      simp [hf]

/-- A concrete engine holding one region (handle 0) of two unresident pages,
used by the witnesses. -/
def sampleEngine : Engine :=
  match allocate Engine.init 8192 with
  | .ok p => p.2
  | .error _ => Engine.init

/-- Witness for C1: on the sample two-page region, a read access of the full
range by device 1 makes both pages resident on device 1 and returns a
nonempty set of operations, since the pages were not already resident. -/
theorem access_residency_closure_witness :
    ∃ reg ops s',
      sampleEngine.regions 0 = some reg ∧
      access sampleEngine 0 ⟨0, 8192⟩ 1 AccessKind.read = .ok (ops, s') ∧
      ((∀ hh rg pg, s'.regions hh = some rg → pg ∈ rg.pages →
          pg.resident = none ∨ ∃ d0, pg.resident = some d0) ∧
       (∃ reg', s'.regions 0 = some reg' ∧
         reg'.pages.length = reg.pages.length ∧
         ∀ i ∈ pagesInRange ⟨0, 8192⟩ reg.pages.length,
           ∃ pg, reg'.pages[i]? = some pg ∧ pg.resident = some 1) ∧
       (ops = [] ↔ ∀ i ∈ pagesInRange ⟨0, 8192⟩ reg.pages.length,
           ∃ pg, reg.pages[i]? = some pg ∧ pg.resident = some 1)) := by
  refine ⟨_, _, _, rfl, rfl, ?_⟩
  exact access_residency_closure sampleEngine 0 ⟨0, 8192⟩ 1 AccessKind.read
    _ _ _ rfl rfl

/-- Claim C2, batching: a single access touching a contiguous byte range
spanning K pages all unresident or foreign produces exactly one MigrationOp
covering those K pages; and for every access or prefetch call, one
MigrationOp is produced per maximal contiguous run of faulting pages (the
runs together cover exactly the faulting pages, each run is contiguous, and
consecutive runs do not abut). -/
theorem migration_batching (s : Engine) (h : Nat) (r : ByteRange) (d : Nat)
    (k : AccessKind) (reg : MemoryRegion) (ops : List MigrationOp)
    (s' : Engine)
    (hreg : s.regions h = some reg)
    (hacc : access s h r d k = .ok (ops, s')) :
    (ops.map (fun op => op.pageIdxs) = coalesce (faultingPages reg d r) ∧
     (coalesce (faultingPages reg d r)).flatten = faultingPages reg d r ∧
     (∀ run ∈ coalesce (faultingPages reg d r),
        run ≠ [] ∧ run.Chain' (fun a b => b = a + 1)) ∧
     (coalesce (faultingPages reg d r)).Chain' RunGap) ∧
    (faultingPages reg d r = pagesInRange r reg.pages.length →
      faultingPages reg d r ≠ [] →
      ops.length = 1 ∧
      ∀ op ∈ ops, op.pageIdxs = pagesInRange r reg.pages.length) ∧
    (∀ opsP sP, prefetch s h r d = .ok (some opsP, sP) →
      opsP.map (fun op => op.pageIdxs) = coalesce (prefetchCands s reg h r d) ∧
      (coalesce (prefetchCands s reg h r d)).flatten =
        prefetchCands s reg h r d ∧
      (∀ run ∈ coalesce (prefetchCands s reg h r d),
        run ≠ [] ∧ run.Chain' (fun a b => b = a + 1)) ∧
      (coalesce (prefetchCands s reg h r d)).Chain' RunGap) := by
  simp only [access, hreg] at hacc
  rw [Except.ok.injEq, Prod.mk.injEq] at hacc
  obtain ⟨hops, hs'⟩ := hacc
  subst hops
  subst hs'
  refine ⟨⟨mkOps_map_pageIdxs _ _ _ _ _ _, coalesce_flatten _,
    fun run hrun => ⟨coalesce_ne_nil _ run hrun, coalesce_chain _ run hrun⟩,
    coalesce_gap _⟩, ?_, ?_⟩
  · intro hall hne
    have hch : (faultingPages reg d r).Chain' (fun a b => b = a + 1) := by
      rw [hall]; exact pagesInRange_chain r _
    have hsingle : coalesce (faultingPages reg d r) = [faultingPages reg d r] :=
      coalesce_single _ hne hch
    constructor
    · rw [mkOps_length, hsingle]; rfl
    · intro op hop
      have := (mem_mkOps h d .onDemand reg.pages _ s.nextOpId op hop).2.2.2.1
      rw [hsingle] at this
      simp at this
      rw [this, hall]
  · intro opsP sP hpre
    simp only [prefetch, hreg] at hpre
    split at hpre
    · rw [Except.ok.injEq, Prod.mk.injEq] at hpre
      exact absurd hpre.1 (by simp)
    · rw [Except.ok.injEq, Prod.mk.injEq] at hpre
      obtain ⟨hopsP, _⟩ := hpre
      rw [Option.some.injEq] at hopsP
      subst hopsP
      exact ⟨mkOps_map_pageIdxs _ _ _ _ _ _, coalesce_flatten _,
        fun run hrun => ⟨coalesce_ne_nil _ run hrun, coalesce_chain _ run hrun⟩,
        coalesce_gap _⟩

/-- Witness for C2: on the sample two-page region, a full-range read access
by device 1 finds both pages faulting, contiguous, and produces exactly one
operation covering both. -/
theorem migration_batching_witness :
    ∃ ops s',
      access sampleEngine 0 ⟨0, 8192⟩ 1 AccessKind.read = .ok (ops, s') ∧
      ops.length = 1 ∧
      ∀ op ∈ ops, op.pageIdxs = pagesInRange ⟨0, 8192⟩ 2 := by
  refine ⟨_, _, rfl, ?_⟩
  have h := migration_batching sampleEngine 0 ⟨0, 8192⟩ 1 AccessKind.read
    _ _ _ rfl rfl
  exact h.2.1 (by decide) (by decide)

/-- Every element of the left list of a zip of equal-length lists is paired
with some right element. -/
theorem exists_mem_zip :
    ∀ (l1 l2 : List Nat), l1.length = l2.length →
      ∀ i ∈ l1, ∃ v, (i, v) ∈ l1.zip l2 := by
  intro l1
  induction l1 with
  | nil => intro l2 _ i hi; simp at hi
  | cons a t ih =>
      intro l2 hlen i hi
      rcases l2 with _ | ⟨b, t2⟩
      · simp at hlen
      · rw [List.zip_cons_cons]
        rcases List.mem_cons.mp hi with h | h
        · exact ⟨b, by rw [h]; exact List.mem_cons_self _ _⟩
        · obtain ⟨v, hv⟩ := ih t2 (by simpa using hlen) i h
          exact ⟨v, List.mem_cons_of_mem _ hv⟩

/-- A page mid-migration to d by a fresh in-flight operation is already
resident on d. -/
theorem midMigration_resident (s : Engine) (h d i : Nat) (reg : MemoryRegion)
    (hreg : s.regions h = some reg)
    (hfresh : ∀ op ∈ s.inFlight, opFresh s op = true)
    (hmid : midMigration s.inFlight h d i = true) :
    ∃ pg, reg.pages[i]? = some pg ∧ pg.resident = some d := by
  rw [midMigration, List.any_eq_true] at hmid
  obtain ⟨op, hop, hcond⟩ := hmid
  rw [Bool.and_assoc, Bool.and_eq_true, Bool.and_eq_true] at hcond
  obtain ⟨hh, hd, hcont⟩ := hcond
  have hh' : op.handle = h := by simpa using hh
  have hd' : op.dst = d := by simpa using hd
  have hi : i ∈ op.pageIdxs := by simpa using hcont
  have hf := hfresh op hop
  rw [opFresh, hh', hreg] at hf
  rw [Bool.and_eq_true] at hf
  obtain ⟨hlen, hall⟩ := hf
  have hlen' : op.pageIdxs.length = op.pageVersions.length := by simpa using hlen
  obtain ⟨v, hv⟩ := exists_mem_zip op.pageIdxs op.pageVersions hlen' i hi
  rw [List.all_eq_true] at hall
  have := hall (i, v) hv
  rcases hpg : reg.pages[i]? with _ | pg
  · rw [hpg] at this; cases this
  · rw [hpg] at this
    rw [Bool.and_eq_true] at this
    refine ⟨pg, rfl, ?_⟩
    have := this.2
    rw [← hd']
    simpa using this

/-- A touched page that is not a prefetch candidate is already resident on
the destination device (given that the in-flight operations are fresh). -/
theorem not_cand_resident (s : Engine) (reg : MemoryRegion) (h : Nat)
    (r : ByteRange) (d i : Nat)
    (hreg : s.regions h = some reg)
    (hfresh : ∀ op ∈ s.inFlight, opFresh s op = true)
    (hi : i ∈ pagesInRange r reg.pages.length)
    (hnc : i ∉ prefetchCands s reg h r d) :
    ∃ pg, reg.pages[i]? = some pg ∧ pg.resident = some d := by
  have hilt : i < reg.pages.length := ((mem_pagesInRange r _ i).mp hi).2
  rw [prefetchCands, List.mem_filter] at hnc
  push_neg at hnc
  have hne := hnc hi
  have hcases : needsFault reg.pages d i = false ∨
      midMigration s.inFlight h d i = true := by
    rcases hnf : needsFault reg.pages d i with _ | _
    · exact Or.inl rfl
    · rcases hmm : midMigration s.inFlight h d i with _ | _
      · exact absurd (by simp [hnf, hmm]) hne
      · exact Or.inr rfl
  rcases hcases with hf | hmid
  · exact (needsFault_false_iff _ d i hilt).mp hf
  · exact midMigration_resident s h d i reg hreg hfresh hmid

/-- After a completed prefetch, every touched page is resident on the
destination device. -/
theorem prefetch_resident_after (s : Engine) (h : Nat) (r : ByteRange)
    (d : Nat) (reg : MemoryRegion) (res : Option (List MigrationOp))
    (s1 : Engine)
    (hfresh : ∀ op ∈ s.inFlight, opFresh s op = true)
    (hreg : s.regions h = some reg)
    (hpre : prefetch s h r d = .ok (res, s1)) :
    ∃ reg1, s1.regions h = some reg1 ∧
      reg1.pages.length = reg.pages.length ∧
      ∀ i ∈ pagesInRange r reg.pages.length,
        ∃ pg, reg1.pages[i]? = some pg ∧ pg.resident = some d := by
  simp only [prefetch, hreg] at hpre
  split at hpre
  · rename_i hempty
    rw [Except.ok.injEq, Prod.mk.injEq] at hpre
    obtain ⟨_, hs1⟩ := hpre
    subst hs1
    refine ⟨reg, hreg, rfl, ?_⟩
    intro i hi
    have hnc : i ∉ prefetchCands s reg h r d := by
      intro hc
      rw [List.isEmpty_iff] at hempty
      rw [hempty] at hc
      simp at hc
    exact not_cand_resident s reg h r d i hreg hfresh hi hnc
  · rw [Except.ok.injEq, Prod.mk.injEq] at hpre
    obtain ⟨_, hs1⟩ := hpre
    subst hs1
    refine ⟨_, by rw [pruneStale_regions]; exact setRegion_self _ _ _,
      updatePages_length _ _ _, ?_⟩
    intro i hi
    have hilt : i < reg.pages.length := ((mem_pagesInRange r _ i).mp hi).2
    have hg : reg.pages[i]? = some reg.pages[i] := List.getElem?_eq_getElem hilt
    by_cases hc : i ∈ prefetchCands s reg h r d
    · exact ⟨bumpPage d false reg.pages[i],
        updatePages_mem _ _ _ _ _ hc hg, rfl⟩
    · obtain ⟨pg, hpg, hres⟩ := not_cand_resident s reg h r d i hreg hfresh hi hc
      refine ⟨pg, ?_, hres⟩
      rw [updatePages_not_mem _ _ _ _ hc, hpg]

/-- An access whose touched pages are all resident on the accessing device
creates no operation and leaves the on-demand counter unchanged. -/
theorem access_no_fault (s : Engine) (h : Nat) (r : ByteRange) (d : Nat)
    (k : AccessKind) (reg : MemoryRegion) (ops : List MigrationOp)
    (s' : Engine)
    (hreg : s.regions h = some reg)
    (hres : ∀ i ∈ pagesInRange r reg.pages.length,
      ∃ pg, reg.pages[i]? = some pg ∧ pg.resident = some d)
    (hacc : access s h r d k = .ok (ops, s')) :
    ops = [] ∧ s'.profile.onDemandOps = s.profile.onDemandOps := by
  obtain ⟨_, _, hiff⟩ :=
    access_residency_closure s h r d k reg ops s' hreg hacc
  have hops : ops = [] := hiff.mpr hres
  refine ⟨hops, ?_⟩
  simp only [access, hreg] at hacc
  rw [Except.ok.injEq, Prod.mk.injEq] at hacc
  obtain ⟨hops', hs'⟩ := hacc
  subst hs'
  rw [pruneStale_profile]
  show (recordOps s.profile .onDemand d _).onDemandOps = _
  rw [hops] at hops'
  rw [hops']
  rfl

/-- Claim C4, fault elimination by prefetch: starting from process start,
allocate a region, prefetch its full byte range to device d, then read the
full range on d: the access triggers zero on-demand MigrationOps and leaves
the on-demand counters of the Profile Recorder unchanged for that run. -/
theorem prefetch_fault_elimination (size : Int) (d h : Nat)
    (s0 : Engine) (res : Option (List MigrationOp)) (s1 : Engine)
    (ops : List MigrationOp) (s2 : Engine)
    (halloc : allocate Engine.init size = .ok (h, s0))
    (hpre : prefetch s0 h ⟨0, size.toNat⟩ d = .ok (res, s1))
    (hacc : access s1 h ⟨0, size.toNat⟩ d AccessKind.read = .ok (ops, s2)) :
    ops = [] ∧ s2.profile.onDemandOps = s1.profile.onDemandOps := by
  simp only [allocate] at halloc
  split at halloc
  · cases halloc
  · rw [Except.ok.injEq, Prod.mk.injEq] at halloc
    obtain ⟨hh, hs0⟩ := halloc
    have hfl : s0.inFlight = [] := by rw [← hs0]; rfl
    have hfresh : ∀ op ∈ s0.inFlight, opFresh s0 op = true := by
      rw [hfl]; intro op hop; cases hop
    have hreg0 : s0.regions h = some
        { sizeBytes := size.toNat,
          pages := List.replicate ((size.toNat + pageSize - 1) / pageSize)
            freshPage } := by
      rw [← hs0, ← hh]
      rfl
    obtain ⟨reg1, hreg1, hlen1, hres1⟩ :=
      prefetch_resident_after s0 h ⟨0, size.toNat⟩ d _ res s1 hfresh hreg0 hpre
    have hlen1' : reg1.pages.length =
        ((size.toNat + pageSize - 1) / pageSize) := by
      rw [hlen1]; simp
    refine access_no_fault s1 h ⟨0, size.toNat⟩ d AccessKind.read reg1 ops s2
      hreg1 ?_ hacc
    intro i hi
    apply hres1
    rw [mem_pagesInRange] at hi ⊢
    refine ⟨hi.1, ?_⟩
    rw [hlen1'] at hi
    simpa using hi.2

/-- Witness for C4 on a concrete two-page region prefetched to device 1 and
then read on device 1: zero on-demand operations. -/
theorem prefetch_fault_elimination_witness :
    ∃ s0 res s1 ops s2,
      allocate Engine.init 8192 = .ok (0, s0) ∧
      prefetch s0 0 ⟨0, (8192 : Int).toNat⟩ 1 = .ok (res, s1) ∧
      access s1 0 ⟨0, (8192 : Int).toNat⟩ 1 AccessKind.read = .ok (ops, s2) ∧
      ops = [] ∧ s2.profile.onDemandOps = s1.profile.onDemandOps := by
  refine ⟨_, _, _, _, _, rfl, rfl, rfl, ?_⟩
  exact prefetch_fault_elimination 8192 1 0 _ _ _ _ _ rfl rfl rfl

/-- Claim C3, prefetch idempotence: with fresh in-flight state and no
intervening access, a second prefetch of the same range to the same device
returns none; in general prefetch returns none whenever every page of the
range is already resident on the target device, and returns a nonempty batch
whenever some touched page needs migration. -/
theorem prefetch_idempotent (s : Engine) (h : Nat) (r : ByteRange) (d : Nat)
    (res1 : Option (List MigrationOp)) (s1 : Engine)
    (res2 : Option (List MigrationOp)) (s2 : Engine)
    (hfresh : ∀ op ∈ s.inFlight, opFresh s op = true)
    (h1 : prefetch s h r d = .ok (res1, s1))
    (h2 : prefetch s1 h r d = .ok (res2, s2)) :
    res2 = none ∧
    (∀ reg, s.regions h = some reg →
      (∀ i ∈ pagesInRange r reg.pages.length,
        ∃ pg, reg.pages[i]? = some pg ∧ pg.resident = some d) →
      res1 = none) ∧
    (∀ reg, s.regions h = some reg →
      (∃ i ∈ pagesInRange r reg.pages.length,
        needsFault reg.pages d i = true) →
      ∃ ops1, res1 = some ops1 ∧ ops1 ≠ []) := by
  rcases hre : s.regions h with _ | reg
  · rw [prefetch, hre] at h1; cases h1
  refine ⟨?_, ?_, ?_⟩
  · obtain ⟨reg1, hreg1, hlen1, hres1⟩ :=
      prefetch_resident_after s h r d reg res1 s1 hfresh hre h1
    have hcands : prefetchCands s1 reg1 h r d = [] := by
      rw [prefetchCands, List.filter_eq_nil_iff]
      intro i hi
      have hilt : i < reg1.pages.length := ((mem_pagesInRange r _ i).mp hi).2
      have hi' : i ∈ pagesInRange r reg.pages.length := by
        rw [mem_pagesInRange] at hi ⊢
        exact ⟨hi.1, hlen1 ▸ hi.2⟩
      have hf : needsFault reg1.pages d i = false :=
        (needsFault_false_iff _ d i hilt).mpr (hres1 i hi')
      simp [hf]
    rw [prefetch, hreg1] at h2
    simp only [hcands] at h2
    rw [if_pos (by rfl)] at h2
    rw [Except.ok.injEq, Prod.mk.injEq] at h2
    exact h2.1.symm
  · intro reg' hreg' hres
    rw [Option.some.injEq] at hreg'
    subst hreg'
    have hcands : prefetchCands s reg h r d = [] := by
      rw [prefetchCands, List.filter_eq_nil_iff]
      intro i hi
      have hilt : i < reg.pages.length := ((mem_pagesInRange r _ i).mp hi).2
      have hf : needsFault reg.pages d i = false :=
        (needsFault_false_iff _ d i hilt).mpr (hres i hi)
      simp [hf]
    simp only [prefetch, hre, hcands] at h1
    rw [if_pos (by rfl)] at h1
    rw [Except.ok.injEq, Prod.mk.injEq] at h1
    exact h1.1.symm
  · intro reg' hreg' hex
    rw [Option.some.injEq] at hreg'
    subst hreg'
    obtain ⟨i, hi, hf⟩ := hex
    have hmid : midMigration s.inFlight h d i = false := by
      rcases hmm : midMigration s.inFlight h d i with _ | _
      · rfl
      · exfalso
        obtain ⟨pg, hpg, hres⟩ :=
          midMigration_resident s h d i reg hre hfresh hmm
        have hilt : i < reg.pages.length := ((mem_pagesInRange r _ i).mp hi).2
        have : needsFault reg.pages d i = false :=
          (needsFault_false_iff _ d i hilt).mpr ⟨pg, hpg, hres⟩
        rw [this] at hf
        cases hf
    have hcand : i ∈ prefetchCands s reg h r d := by
      rw [prefetchCands, List.mem_filter]
      exact ⟨hi, by rw [hf, hmid]; rfl⟩
    have hne : (prefetchCands s reg h r d).isEmpty = false := by
      rcases hc : prefetchCands s reg h r d with _ | _
      · rw [hc] at hcand; cases hcand
      · rfl
    simp only [prefetch, hre] at h1
    rw [if_neg (by rw [hne]; exact Bool.false_ne_true)] at h1
    rw [Except.ok.injEq, Prod.mk.injEq] at h1
    refine ⟨_, h1.1.symm, ?_⟩
    rw [Ne, mkOps_eq_nil, coalesce_eq_nil]
    intro hnil
    rw [hnil] at hcand
    cases hcand

/-- Witness for C3 on the sample two-page region: the first prefetch to
device 1 returns a batch, the second returns none. -/
theorem prefetch_idempotent_witness :
    ∃ res1 s1 res2 s2,
      prefetch sampleEngine 0 ⟨0, 8192⟩ 1 = .ok (res1, s1) ∧
      prefetch s1 0 ⟨0, 8192⟩ 1 = .ok (res2, s2) ∧
      res2 = none ∧ (∃ ops1, res1 = some ops1 ∧ ops1 ≠ []) := by
  refine ⟨_, _, _, _, rfl, rfl, ?_, ?_⟩
  · exact (prefetch_idempotent sampleEngine 0 ⟨0, 8192⟩ 1 _ _ _ _
      (by intro op hop; cases hop) rfl rfl).1
  · refine (prefetch_idempotent sampleEngine 0 ⟨0, 8192⟩ 1 _ _ _ _
      (by intro op hop; cases hop) rfl rfl).2.2 _ rfl ?_
    exact ⟨0, by decide, by decide⟩

/-- Claim C7, allocation error handling: allocate(size) fails with
InvalidSize if and only if size is not positive (the failure produces no
engine state, so no region is left allocated); when size is positive it
creates a MemoryRegion in which every page is unresident. -/
theorem allocate_invalid_size (s : Engine) (size : Int) :
    (size ≤ 0 → allocate s size = .error .InvalidSize) ∧
    (∀ e, allocate s size = .error e → size ≤ 0 ∧ e = .InvalidSize) ∧
    (∀ h s', allocate s size = .ok (h, s') →
      0 < size ∧
      ∃ reg, s'.regions h = some reg ∧
        reg.sizeBytes = size.toNat ∧
        reg.pages.length = (size.toNat + pageSize - 1) / pageSize ∧
        ∀ pg ∈ reg.pages, pg.resident = none) := by
  refine ⟨?_, ?_, ?_⟩
  · intro hle
    rw [allocate, if_pos hle]
  · intro e he
    by_cases hle : size ≤ 0
    · rw [allocate, if_pos hle, Except.error.injEq] at he
      exact ⟨hle, he.symm⟩
    · rw [allocate, if_neg hle] at he
      cases he
  · intro h s' hok
    by_cases hle : size ≤ 0
    · rw [allocate, if_pos hle] at hok
      cases hok
    · rw [allocate, if_neg hle, Except.ok.injEq, Prod.mk.injEq] at hok
      obtain ⟨hh, hs'⟩ := hok
      refine ⟨by omega, ?_⟩
      refine ⟨{ sizeBytes := size.toNat,
                pages := List.replicate ((size.toNat + pageSize - 1) / pageSize)
                  freshPage }, ?_, rfl, List.length_replicate _ _, ?_⟩
      · rw [← hs', ← hh, pruneStale_regions]
        exact setRegion_self _ _ _
      · intro pg hpg
        have := List.eq_of_mem_replicate hpg
        rw [this]
        rfl

/-- Witness for C7: allocating -3 bytes fails with InvalidSize, allocating
4096 bytes from process start succeeds with one unresident page. -/
theorem allocate_invalid_size_witness :
    allocate Engine.init (-3) = .error .InvalidSize ∧
    ∃ s', allocate Engine.init 4096 = .ok (0, s') ∧
      ∃ reg, s'.regions 0 = some reg ∧
        reg.sizeBytes = (4096 : Int).toNat ∧
        reg.pages.length = ((4096 : Int).toNat + pageSize - 1) / pageSize ∧
        ∀ pg ∈ reg.pages, pg.resident = none := by
  constructor
  · exact (allocate_invalid_size Engine.init (-3)).1 (by decide)
  · refine ⟨_, rfl, ?_⟩
    exact ((allocate_invalid_size Engine.init 4096).2.2 0 _ rfl).2

/-! ### The engine invariant: bounded handles, fresh in-flight operations,
and per-page exclusion of in-flight operations -/

/-- Two operations of the same region never share a page. -/
def OpsDisjoint (o1 o2 : MigrationOp) : Prop :=
  o1.handle = o2.handle → ∀ i, i ∈ o1.pageIdxs → i ∉ o2.pageIdxs

/-- The engine invariant: live handles are below the handle counter, every
in-flight operation is fresh, and in-flight operations of the same region
are pairwise page-disjoint. -/
def Inv (s : Engine) : Prop :=
  (∀ h, (s.regions h).isSome → h < s.nextHandle) ∧
  (∀ op ∈ s.inFlight, opFresh s op = true) ∧
  s.inFlight.Pairwise OpsDisjoint

/-- Freshness only reads the region map. -/
theorem opFresh_congr (s1 s2 : Engine) (op : MigrationOp)
    (hr : s1.regions op.handle = s2.regions op.handle) :
    opFresh s1 op = opFresh s2 op := by
  rw [opFresh, opFresh, hr]

/-- Freshness is unchanged by pruning. -/
theorem opFresh_pruneStale (s : Engine) (op : MigrationOp) :
    opFresh (pruneStale s) op = opFresh s op := rfl

/-- Every operation left after a prune is fresh. -/
theorem pruneStale_fresh (s : Engine) :
    ∀ op ∈ (pruneStale s).inFlight, opFresh (pruneStale s) op = true := by
  intro op hop
  rw [opFresh_pruneStale]
  exact (List.mem_filter.mp hop).2

theorem pruneStale_nextHandle (s : Engine) :
    (pruneStale s).nextHandle = s.nextHandle := rfl

theorem pruneStale_inFlight (s : Engine) :
    (pruneStale s).inFlight = s.inFlight.filter (fun op => opFresh s op) := rfl

/-- Unpacking freshness: the version and residency records of a fresh
operation agree with the current page states. -/
theorem opFresh_elim (s : Engine) (op : MigrationOp) (reg : MemoryRegion)
    (hreg : s.regions op.handle = some reg)
    (hf : opFresh s op = true) :
    op.pageIdxs.length = op.pageVersions.length ∧
    ∀ i v, (i, v) ∈ op.pageIdxs.zip op.pageVersions →
      ∃ pg, reg.pages[i]? = some pg ∧ pg.version = v ∧
        pg.resident = some op.dst := by
  rw [opFresh, hreg, Bool.and_eq_true] at hf
  obtain ⟨hlen, hall⟩ := hf
  refine ⟨by simpa using hlen, ?_⟩
  intro i v hiv
  rw [List.all_eq_true] at hall
  have := hall (i, v) hiv
  rcases hpg : reg.pages[i]? with _ | pg
  · rw [hpg] at this; cases this
  · rw [hpg, Bool.and_eq_true] at this
    exact ⟨pg, rfl, by simpa using this.1, by simpa using this.2⟩

/-- The candidate pages of a prefetch are duplicate free. -/
theorem prefetchCands_nodup (s : Engine) (reg : MemoryRegion) (h : Nat)
    (r : ByteRange) (d : Nat) : (prefetchCands s reg h r d).Nodup :=
  (pagesInRange_nodup r _).filter _

/-- The faulting pages of an access are duplicate free. -/
theorem faultingPages_nodup (reg : MemoryRegion) (d : Nat) (r : ByteRange) :
    (faultingPages reg d r).Nodup :=
  (pagesInRange_nodup r _).filter _

/-- Batched runs of a duplicate-free list are pairwise disjoint. -/
theorem coalesce_pairwise_disjoint (l : List Nat) (hn : l.Nodup) :
    (coalesce l).Pairwise List.Disjoint := by
  have hfl : (coalesce l).flatten.Nodup := by
    rw [coalesce_flatten]; exact hn
  exact (List.nodup_flatten.mp hfl).2

/-- Operations built from pairwise disjoint runs are pairwise disjoint. -/
theorem mkOps_pairwise (h d : Nat) (tk : TriggerKind) (pgs : List Page) :
    ∀ (runs : List (List Nat)), runs.Pairwise List.Disjoint →
      ∀ oid, (mkOps oid h d tk pgs runs).Pairwise OpsDisjoint := by
  intro runs
  induction runs with
  | nil => intro _ oid; exact List.Pairwise.nil
  | cons run rest ih =>
      intro hp oid
      rw [List.pairwise_cons] at hp
      show List.Pairwise OpsDisjoint (mkOp oid h d tk pgs run :: mkOps (oid + 1) h d tk pgs rest)
      rw [List.pairwise_cons]
      refine ⟨?_, ih hp.2 (oid + 1)⟩
      intro op2 hop2 _ i hi1 hi2
      have h4 := (mem_mkOps h d tk pgs rest (oid + 1) op2 hop2).2.2.2.1
      exact hp.1 op2.pageIdxs h4 hi1 hi2

/-- Pages of a batched run lie in the batched list. -/
theorem mem_of_mem_coalesce (l : List Nat) (run : List Nat) (i : Nat)
    (hrun : run ∈ coalesce l) (hi : i ∈ run) : i ∈ l := by
  rw [← coalesce_flatten l]
  exact List.mem_flatten.mpr ⟨run, hrun, hi⟩

/-- Core of the exclusion argument: an in-flight operation of region h that
was fresh before a migration of one of its pages cannot be fresh after it
(the migration bumps the version of that page), so it cannot coexist with a
freshly created operation covering the same page. -/
theorem stale_after_bump (s : Engine) (h : Nat) (reg : MemoryRegion)
    (cands : List Nat) (s₁ : Engine) (d₁ : Nat) (w : Bool)
    (hre : s.regions h = some reg)
    (hreg₁ : s₁.regions h =
      some { reg with pages := updatePages cands (bumpPage d₁ w) reg.pages })
    (o1 : MigrationOp)
    (hf0 : opFresh s o1 = true) (hf1 : opFresh s₁ o1 = true)
    (hhandle : o1.handle = h)
    (i : Nat) (hi1 : i ∈ o1.pageIdxs) (hic : i ∈ cands) : False := by
  have hre' : s.regions o1.handle = some reg := by rw [hhandle]; exact hre
  have hreg₁' : s₁.regions o1.handle =
      some { reg with pages := updatePages cands (bumpPage d₁ w) reg.pages } := by
    rw [hhandle]; exact hreg₁
  obtain ⟨hlen, hpre⟩ := opFresh_elim s o1 reg hre' hf0
  obtain ⟨v, hiv⟩ := exists_mem_zip o1.pageIdxs o1.pageVersions hlen i hi1
  obtain ⟨pg, hpg, hv, _⟩ := hpre i v hiv
  obtain ⟨_, hpost⟩ := opFresh_elim s₁ o1 _ hreg₁' hf1
  obtain ⟨pg', hpg', hv', _⟩ := hpost i v hiv
  have hupd : (updatePages cands (bumpPage d₁ w) reg.pages)[i]? =
      some (bumpPage d₁ w pg) := updatePages_mem _ _ _ _ _ hic hpg
  rw [hupd, Option.some.injEq] at hpg'
  rw [← hpg'] at hv'
  rw [bumpPage] at hv'
  simp only at hv'
  omega

/-- The invariant is preserved by allocate. -/
theorem inv_allocate (s : Engine) (sz : Int) (h : Nat) (s' : Engine)
    (hInv : Inv s) (halloc : allocate s sz = .ok (h, s')) : Inv s' := by
  rw [allocate] at halloc
  split at halloc
  · cases halloc
  · rw [Except.ok.injEq, Prod.mk.injEq] at halloc
    obtain ⟨hh, hs'⟩ := halloc
    subst hs'
    refine ⟨?_, pruneStale_fresh _, ?_⟩
    · intro h' hsome
      rw [pruneStale_regions] at hsome
      rw [pruneStale_nextHandle]
      dsimp only at hsome ⊢
      by_cases hcase : h' = s.nextHandle
      · omega
      · rw [setRegion_other _ _ _ _ hcase] at hsome
        have := hInv.1 h' hsome
        omega
    · rw [pruneStale_inFlight]
      refine List.Pairwise.sublist ?_ hInv.2.2
      exact List.filter_sublist _

/-- The invariant is preserved by free. -/
theorem inv_free (s : Engine) (h : Nat) (s' : Engine)
    (hInv : Inv s) (hfree : free s h = .ok s') : Inv s' := by
  rcases hre : s.regions h with _ | reg
  · rw [free, hre] at hfree; cases hfree
  rw [free, hre, Except.ok.injEq] at hfree
  subst hfree
  refine ⟨?_, pruneStale_fresh _, ?_⟩
  · intro h' hsome
    rw [pruneStale_regions] at hsome
    rw [pruneStale_nextHandle]
    dsimp only at hsome ⊢
    by_cases hcase : h' = h
    · rw [hcase, setRegion_self] at hsome
      cases hsome
    · rw [setRegion_other _ _ _ _ hcase] at hsome
      exact hInv.1 h' hsome
  · rw [pruneStale_inFlight]
    refine List.Pairwise.sublist ?_ hInv.2.2
    exact List.filter_sublist _

/-- The invariant is preserved by access. -/
theorem inv_access (s : Engine) (h : Nat) (r : ByteRange) (d : Nat)
    (k : AccessKind) (ops : List MigrationOp) (s' : Engine)
    (hInv : Inv s) (hacc : access s h r d k = .ok (ops, s')) : Inv s' := by
  rcases hre : s.regions h with _ | reg
  · rw [access, hre] at hacc; cases hacc
  simp only [access, hre] at hacc
  rw [Except.ok.injEq, Prod.mk.injEq] at hacc
  obtain ⟨_, hs'⟩ := hacc
  subst hs'
  refine ⟨?_, pruneStale_fresh _, ?_⟩
  · intro h' hsome
    rw [pruneStale_regions] at hsome
    rw [pruneStale_nextHandle]
    dsimp only at hsome ⊢
    by_cases hcase : h' = h
    · rw [hcase]
      exact hInv.1 h (by rw [hre]; rfl)
    · rw [setRegion_other _ _ _ _ hcase] at hsome
      exact hInv.1 h' hsome
  · rw [pruneStale_inFlight]
    refine List.Pairwise.sublist ?_ hInv.2.2
    exact (List.filter_sublist _).trans (List.filter_sublist _)

/-- The invariant is preserved by prefetch: newly created operations cover
pairwise disjoint runs, and any older operation sharing a page with them is
made stale by the version bump and pruned. -/
theorem inv_prefetch (s : Engine) (h : Nat) (r : ByteRange) (d : Nat)
    (res : Option (List MigrationOp)) (s' : Engine)
    (hInv : Inv s) (hpre : prefetch s h r d = .ok (res, s')) : Inv s' := by
  rcases hre : s.regions h with _ | reg
  · rw [prefetch, hre] at hpre; cases hpre
  simp only [prefetch, hre] at hpre
  split at hpre
  · rw [Except.ok.injEq, Prod.mk.injEq] at hpre
    rw [← hpre.2]
    exact hInv
  · rw [Except.ok.injEq, Prod.mk.injEq] at hpre
    obtain ⟨_, hs'⟩ := hpre
    subst hs'
    refine ⟨?_, pruneStale_fresh _, ?_⟩
    · intro h' hsome
      rw [pruneStale_regions] at hsome
      rw [pruneStale_nextHandle]
      dsimp only at hsome ⊢
      by_cases hcase : h' = h
      · rw [hcase]
        exact hInv.1 h (by rw [hre]; rfl)
      · rw [setRegion_other _ _ _ _ hcase] at hsome
        exact hInv.1 h' hsome
    · rw [pruneStale_inFlight]
      dsimp only
      rw [List.filter_append, List.pairwise_append]
      refine ⟨hInv.2.2.filter _, ?_, ?_⟩
      · refine List.Pairwise.filter _ ?_
        exact mkOps_pairwise h d .prefetched reg.pages _
          (coalesce_pairwise_disjoint _ (prefetchCands_nodup s reg h r d)) _
      · intro o1 ho1 o2 ho2
        rw [List.mem_filter] at ho1 ho2
        intro hhandle i hi1 hi2
        have ho2m := mem_mkOps h d .prefetched reg.pages _ _ o2 ho2.1
        have hic : i ∈ prefetchCands s reg h r d :=
          mem_of_mem_coalesce _ _ i ho2m.2.2.2.1 hi2
        have hh1 : o1.handle = h := by rw [hhandle, ho2m.1]
        refine stale_after_bump s h reg (prefetchCands s reg h r d) _ d false
          hre ?_ o1 (hInv.2.1 o1 ho1.1) ho1.2 hh1 i hi1 hic
        dsimp only
        rw [setRegion_self]

/-- The invariant holds at process start. -/
theorem inv_init : Inv Engine.init := by
  refine ⟨?_, ?_, List.Pairwise.nil⟩
  · intro h hs
    cases hs
  · intro op hop
    cases hop

/-- The invariant is preserved by every engine operation. -/
theorem inv_step (s s' : Engine) (hInv : Inv s) (hstep : Step s s') :
    Inv s' := by
  cases hstep with
  | alloc sz h s' halloc => exact inv_allocate _ sz h s' hInv halloc
  | acc h r d k ops s' hacc => exact inv_access _ h r d k ops s' hInv hacc
  | pref h r d res s' hpre => exact inv_prefetch _ h r d res s' hInv hpre
  | fr h s' hfree => exact inv_free _ h s' hInv hfree

/-- Every reachable engine state satisfies the invariant. -/
theorem reachable_inv (s : Engine) (hs : Reachable s) : Inv s := by
  induction hs with
  | refl => exact inv_init
  | tail _ hstep ih => exact inv_step _ _ ih hstep

/-- A freed handle stays freed across any further engine operation. -/
theorem freed_persists_step (h : Nat) (s s' : Engine) (hstep : Step s s')
    (hnone : s.regions h = none) (hlt : h < s.nextHandle) :
    s'.regions h = none ∧ h < s'.nextHandle := by
  cases hstep with
  | alloc sz h0 s' halloc =>
      rw [allocate] at halloc
      split at halloc
      · cases halloc
      · rw [Except.ok.injEq, Prod.mk.injEq] at halloc
        obtain ⟨_, hs'⟩ := halloc
        subst hs'
        constructor
        · rw [pruneStale_regions]
          dsimp only
          rw [setRegion_other _ _ _ _ (by omega)]
          exact hnone
        · rw [pruneStale_nextHandle]
          dsimp only
          omega
  | acc h0 r d k ops s' hacc =>
      rcases hre : s.regions h0 with _ | reg
      · rw [access, hre] at hacc; cases hacc
      have hne : h ≠ h0 := by
        intro he; rw [he, hre] at hnone; cases hnone
      simp only [access, hre] at hacc
      rw [Except.ok.injEq, Prod.mk.injEq] at hacc
      obtain ⟨_, hs'⟩ := hacc
      subst hs'
      constructor
      · rw [pruneStale_regions]
        dsimp only
        rw [setRegion_other _ _ _ _ hne]
        exact hnone
      · rw [pruneStale_nextHandle]
        dsimp only
        omega
  | pref h0 r d res s' hpre =>
      rcases hre : s.regions h0 with _ | reg
      · rw [prefetch, hre] at hpre; cases hpre
      have hne : h ≠ h0 := by
        intro he; rw [he, hre] at hnone; cases hnone
      simp only [prefetch, hre] at hpre
      split at hpre
      · rw [Except.ok.injEq, Prod.mk.injEq] at hpre
        rw [← hpre.2]
        exact ⟨hnone, hlt⟩
      · rw [Except.ok.injEq, Prod.mk.injEq] at hpre
        obtain ⟨_, hs'⟩ := hpre
        subst hs'
        constructor
        · rw [pruneStale_regions]
          dsimp only
          rw [setRegion_other _ _ _ _ hne]
          exact hnone
        · rw [pruneStale_nextHandle]
          dsimp only
          omega
  | fr h0 s' hfree =>
      rcases hre : s.regions h0 with _ | reg
      · rw [free, hre] at hfree; cases hfree
      have hne : h ≠ h0 := by
        intro he; rw [he, hre] at hnone; cases hnone
      rw [free, hre, Except.ok.injEq] at hfree
      subst hfree
      constructor
      · rw [pruneStale_regions]
        dsimp only
        rw [setRegion_other _ _ _ _ hne]
        exact hnone
      · rw [pruneStale_nextHandle]
        dsimp only
        omega

/-- A freed handle stays freed along any run of engine operations. -/
theorem freed_persists (h : Nat) (s s' : Engine)
    (hrt : Relation.ReflTransGen Step s s')
    (hnone : s.regions h = none) (hlt : h < s.nextHandle) :
    s'.regions h = none ∧ h < s'.nextHandle := by
  induction hrt with
  | refl => exact ⟨hnone, hlt⟩
  | tail _ hstep ih => exact freed_persists_step h _ _ hstep ih.1 ih.2

/-- Claim C8, use-after-free error handling: after free(h) completes, every
subsequent access on h fails with UseAfterFree (a local error returned to
the caller, never a crash: the operations are total), through any number of
further engine operations; prefetch on the freed handle likewise reports
UseAfterFree; the in-flight prefetches of the freed region are silently
dropped with no error, while in-flight prefetches of other regions are
kept. -/
theorem free_use_after_free (s : Engine) (h : Nat) (s' : Engine)
    (hInv : Inv s) (hfree : free s h = .ok s') :
    (∀ s'', Relation.ReflTransGen Step s' s'' →
      ∀ r d k, access s'' h r d k = .error .UseAfterFree) ∧
    (∀ r d, prefetch s' h r d = .error .UseAfterFree) ∧
    (∀ op ∈ s'.inFlight, op.handle ≠ h) ∧
    (∀ op ∈ s.inFlight, op.handle ≠ h → op ∈ s'.inFlight) := by
  rcases hre : s.regions h with _ | reg
  · rw [free, hre] at hfree; cases hfree
  have hlt : h < s.nextHandle := hInv.1 h (by rw [hre]; rfl)
  rw [free, hre, Except.ok.injEq] at hfree
  subst hfree
  have hnone : (pruneStale { s with regions := setRegion s.regions h none }).regions h = none := by
    rw [pruneStale_regions]
    dsimp only
    exact setRegion_self _ _ _
  have hlt' : h < (pruneStale { s with regions := setRegion s.regions h none }).nextHandle := by
    rw [pruneStale_nextHandle]
    exact hlt
  refine ⟨?_, ?_, ?_, ?_⟩
  · intro s'' hrt r d k
    obtain ⟨hn, _⟩ := freed_persists h _ s'' hrt hnone hlt'
    rw [access, hn]
  · intro r d
    rw [prefetch, hnone]
  · intro op hop
    rw [pruneStale_inFlight] at hop
    have hf := (List.mem_filter.mp hop).2
    intro he
    rw [opFresh] at hf
    rw [he] at hf
    dsimp only at hf
    rw [setRegion_self] at hf
    cases hf
  · intro op hop hne
    rw [pruneStale_inFlight, List.mem_filter]
    refine ⟨hop, ?_⟩
    have : ({ s with regions := setRegion s.regions h none } : Engine).regions op.handle
        = s.regions op.handle := by
      dsimp only
      exact setRegion_other _ _ _ _ hne
    rw [opFresh_congr _ s op this]
    exact hInv.2.1 op hop

/-- Witness for C8: free the sample region, then an immediate access and a
later one (after an unrelated allocation) both fail with UseAfterFree, and
prefetch on the freed handle fails the same way. -/
theorem free_use_after_free_witness :
    ∃ s', free sampleEngine 0 = .ok s' ∧
      access s' 0 ⟨0, 8192⟩ 1 AccessKind.read = .error .UseAfterFree ∧
      (∀ r d, prefetch s' 0 r d = .error .UseAfterFree) ∧
      (∀ op ∈ s'.inFlight, op.handle ≠ 0) := by
  have hInv : Inv sampleEngine :=
    inv_allocate Engine.init 8192 0 sampleEngine inv_init rfl
  refine ⟨_, rfl, ?_, ?_, ?_⟩
  · exact (free_use_after_free sampleEngine 0 _ hInv rfl).1 _
      Relation.ReflTransGen.refl ⟨0, 8192⟩ 1 AccessKind.read
  · exact (free_use_after_free sampleEngine 0 _ hInv rfl).2.1
  · exact (free_use_after_free sampleEngine 0 _ hInv rfl).2.2.1

/-- A page update by migration never lowers a version counter. -/
theorem version_mono_update (pgs : List Page) (sel : List Nat) (d : Nat)
    (w : Bool) (i : Nat) (pg pg' : Page)
    (hpg : pgs[i]? = some pg)
    (hpg' : (updatePages sel (bumpPage d w) pgs)[i]? = some pg') :
    pg.version ≤ pg'.version := by
  rw [updatePages_getElem?, hpg] at hpg'
  rw [Option.map_some', Option.some.injEq] at hpg'
  split at hpg'
  · rw [← hpg']
    show pg.version ≤ pg.version + 1
    omega
  · rw [← hpg']

/-- Version counters are monotone across every engine operation. -/
theorem step_version_mono (s s' : Engine) (hInv : Inv s) (hstep : Step s s') :
    ∀ (hh : Nat) (reg reg' : MemoryRegion) (i : Nat) (pg pg' : Page),
      s.regions hh = some reg → s'.regions hh = some reg' →
      reg.pages[i]? = some pg → reg'.pages[i]? = some pg' →
      pg.version ≤ pg'.version := by
  intro hh reg reg' i pg pg' hr hr' hpg hpg'
  cases hstep with
  | alloc sz h0 s' halloc =>
      rw [allocate] at halloc
      split at halloc
      · cases halloc
      · rw [Except.ok.injEq, Prod.mk.injEq] at halloc
        obtain ⟨_, hs'⟩ := halloc
        subst hs'
        rw [pruneStale_regions] at hr'
        dsimp only at hr'
        have hne : hh ≠ s.nextHandle := by
          intro he
          have := hInv.1 hh (by rw [hr]; rfl)
          omega
        rw [setRegion_other _ _ _ _ hne, hr, Option.some.injEq] at hr'
        subst hr'
        rw [hpg, Option.some.injEq] at hpg'
        rw [hpg']
  | acc h0 r d k ops s' hacc =>
      rcases hre : s.regions h0 with _ | reg0
      · rw [access, hre] at hacc; cases hacc
      simp only [access, hre] at hacc
      rw [Except.ok.injEq, Prod.mk.injEq] at hacc
      obtain ⟨_, hs'⟩ := hacc
      subst hs'
      rw [pruneStale_regions] at hr'
      dsimp only at hr'
      by_cases hne : hh = h0
      · subst hne
        rw [hre, Option.some.injEq] at hr
        subst hr
        rw [setRegion_self, Option.some.injEq] at hr'
        rw [← hr'] at hpg'
        exact version_mono_update _ _ _ _ i pg pg' hpg hpg'
      · rw [setRegion_other _ _ _ _ hne, hr, Option.some.injEq] at hr'
        subst hr'
        rw [hpg, Option.some.injEq] at hpg'
        rw [hpg']
  | pref h0 r d res s' hpre =>
      rcases hre : s.regions h0 with _ | reg0
      · rw [prefetch, hre] at hpre; cases hpre
      simp only [prefetch, hre] at hpre
      split at hpre
      · rw [Except.ok.injEq, Prod.mk.injEq] at hpre
        rw [← hpre.2] at hr'
        rw [hr, Option.some.injEq] at hr'
        subst hr'
        rw [hpg, Option.some.injEq] at hpg'
        rw [hpg']
      · rw [Except.ok.injEq, Prod.mk.injEq] at hpre
        obtain ⟨_, hs'⟩ := hpre
        subst hs'
        rw [pruneStale_regions] at hr'
        dsimp only at hr'
        by_cases hne : hh = h0
        · subst hne
          rw [hre, Option.some.injEq] at hr
          subst hr
          rw [setRegion_self, Option.some.injEq] at hr'
          rw [← hr'] at hpg'
          exact version_mono_update _ _ _ _ i pg pg' hpg hpg'
        · rw [setRegion_other _ _ _ _ hne, hr, Option.some.injEq] at hr'
          subst hr'
          rw [hpg, Option.some.injEq] at hpg'
          rw [hpg']
  | fr h0 s' hfree =>
      rcases hre : s.regions h0 with _ | reg0
      · rw [free, hre] at hfree; cases hfree
      rw [free, hre, Except.ok.injEq] at hfree
      subst hfree
      rw [pruneStale_regions] at hr'
      dsimp only at hr'
      by_cases hne : hh = h0
      · rw [hne, setRegion_self] at hr'
        cases hr'
      · rw [setRegion_other _ _ _ _ hne, hr, Option.some.injEq] at hr'
        subst hr'
        rw [hpg, Option.some.injEq] at hpg'
        rw [hpg']

/-- An access bumps the version of every page of every operation it creates
by exactly one and counts exactly one on-demand operation per batch. -/
theorem access_bumps (s : Engine) (h : Nat) (r : ByteRange) (d : Nat)
    (k : AccessKind) (reg : MemoryRegion) (ops : List MigrationOp)
    (s' : Engine)
    (hreg : s.regions h = some reg)
    (hacc : access s h r d k = .ok (ops, s')) :
    s'.profile.onDemandOps = s.profile.onDemandOps + ops.length ∧
    ∃ reg', s'.regions h = some reg' ∧
      ∀ op ∈ ops, ∀ i ∈ op.pageIdxs,
        ∃ pg pg', reg.pages[i]? = some pg ∧ reg'.pages[i]? = some pg' ∧
          pg'.version = pg.version + 1 ∧ pg'.resident = some d := by
  simp only [access, hreg] at hacc
  rw [Except.ok.injEq, Prod.mk.injEq] at hacc
  obtain ⟨hops, hs'⟩ := hacc
  subst hs'
  constructor
  · rw [pruneStale_profile]
    dsimp only
    rw [hops]
    rfl
  · refine ⟨_, by rw [pruneStale_regions]; exact setRegion_self _ _ _, ?_⟩
    intro op hop i hi
    rw [← hops] at hop
    have hmem := mem_mkOps h d .onDemand reg.pages _ _ op hop
    have hif : i ∈ faultingPages reg d r :=
      mem_of_mem_coalesce _ _ i hmem.2.2.2.1 hi
    have hi' := (mem_faultingPages reg d r i).mp hif
    have hilt : i < reg.pages.length := ((mem_pagesInRange r _ i).mp hi'.1).2
    have hg : reg.pages[i]? = some reg.pages[i] := List.getElem?_eq_getElem hilt
    exact ⟨reg.pages[i], bumpPage d (k == AccessKind.write) reg.pages[i],
      hg, updatePages_mem _ _ _ _ _ hif hg, rfl, rfl⟩

/-- A prefetch bumps the version of every page of every operation it creates
by exactly one. -/
theorem prefetch_bumps (s : Engine) (h : Nat) (r : ByteRange) (d : Nat)
    (reg : MemoryRegion) (opsP : List MigrationOp) (s' : Engine)
    (hreg : s.regions h = some reg)
    (hpre : prefetch s h r d = .ok (some opsP, s')) :
    ∃ reg', s'.regions h = some reg' ∧
      ∀ op ∈ opsP, ∀ i ∈ op.pageIdxs,
        ∃ pg pg', reg.pages[i]? = some pg ∧ reg'.pages[i]? = some pg' ∧
          pg'.version = pg.version + 1 ∧ pg'.resident = some d := by
  simp only [prefetch, hreg] at hpre
  split at hpre
  · rw [Except.ok.injEq, Prod.mk.injEq] at hpre
    exact absurd hpre.1 (by simp)
  · rw [Except.ok.injEq, Prod.mk.injEq] at hpre
    obtain ⟨hops, hs'⟩ := hpre
    rw [Option.some.injEq] at hops
    subst hs'
    refine ⟨_, by rw [pruneStale_regions]; exact setRegion_self _ _ _, ?_⟩
    intro op hop i hi
    rw [← hops] at hop
    have hmem := mem_mkOps h d .prefetched reg.pages _ _ op hop
    have hic : i ∈ prefetchCands s reg h r d :=
      mem_of_mem_coalesce _ _ i hmem.2.2.2.1 hi
    have hi' := List.mem_filter.mp hic
    have hilt : i < reg.pages.length := ((mem_pagesInRange r _ i).mp hi'.1).2
    have hg : reg.pages[i]? = some reg.pages[i] := List.getElem?_eq_getElem hilt
    exact ⟨reg.pages[i], bumpPage d false reg.pages[i],
      hg, updatePages_mem _ _ _ _ _ hic hg, rfl, rfl⟩

/-- An on-demand fault targeting a page mid-migration to the same
destination attaches to the existing operation: no operation created by the
access covers that page. -/
theorem access_attach (s : Engine) (h : Nat) (r : ByteRange) (d : Nat)
    (k : AccessKind) (reg : MemoryRegion) (ops : List MigrationOp)
    (s' : Engine)
    (hfresh : ∀ op ∈ s.inFlight, opFresh s op = true)
    (hreg : s.regions h = some reg)
    (hacc : access s h r d k = .ok (ops, s')) :
    ∀ i, midMigration s.inFlight h d i = true →
      ∀ op ∈ ops, i ∉ op.pageIdxs := by
  intro i hmid op hop hi
  obtain ⟨pg, hpg, hres⟩ := midMigration_resident s h d i reg hreg hfresh hmid
  simp only [access, hreg] at hacc
  rw [Except.ok.injEq, Prod.mk.injEq] at hacc
  obtain ⟨hops, _⟩ := hacc
  rw [← hops] at hop
  have hmem := mem_mkOps h d .onDemand reg.pages _ _ op hop
  have hif : i ∈ faultingPages reg d r :=
    mem_of_mem_coalesce _ _ i hmem.2.2.2.1 hi
  have hi' := (mem_faultingPages reg d r i).mp hif
  have hilt : i < reg.pages.length := ((mem_pagesInRange r _ i).mp hi'.1).2
  have hf : needsFault reg.pages d i = false :=
    (needsFault_false_iff _ d i hilt).mpr ⟨pg, hpg, hres⟩
  rw [hf] at hi'
  cases hi'.2

/-- Claim C6, per-page migration exclusion: in every reachable engine state
the in-flight operations of one region are pairwise page-disjoint (no two
MigrationOps for the same page in flight concurrently); page version
counters are monotone across every operation and are incremented by exactly
one on each migration of the page (by access and by prefetch); and an
on-demand fault targeting a page already mid-migration to the same
destination attaches to the existing in-flight operation, neither creating
nor counting a new one (the on-demand counter grows by exactly the number of
created operations). -/
theorem migration_exclusion (s : Engine) (hs : Reachable s) :
    List.Pairwise OpsDisjoint s.inFlight ∧
    (∀ s', Step s s' →
      ∀ (hh : Nat) (reg reg' : MemoryRegion) (i : Nat) (pg pg' : Page),
        s.regions hh = some reg → s'.regions hh = some reg' →
        reg.pages[i]? = some pg → reg'.pages[i]? = some pg' →
        pg.version ≤ pg'.version) ∧
    (∀ h r d k reg ops s', s.regions h = some reg →
      access s h r d k = .ok (ops, s') →
      s'.profile.onDemandOps = s.profile.onDemandOps + ops.length ∧
      (∃ reg', s'.regions h = some reg' ∧
        ∀ op ∈ ops, ∀ i ∈ op.pageIdxs,
          ∃ pg pg', reg.pages[i]? = some pg ∧ reg'.pages[i]? = some pg' ∧
            pg'.version = pg.version + 1 ∧ pg'.resident = some d) ∧
      (∀ i, midMigration s.inFlight h d i = true →
        ∀ op ∈ ops, i ∉ op.pageIdxs)) ∧
    (∀ h r d reg opsP s', s.regions h = some reg →
      prefetch s h r d = .ok (some opsP, s') →
      ∃ reg', s'.regions h = some reg' ∧
        ∀ op ∈ opsP, ∀ i ∈ op.pageIdxs,
          ∃ pg pg', reg.pages[i]? = some pg ∧ reg'.pages[i]? = some pg' ∧
            pg'.version = pg.version + 1 ∧ pg'.resident = some d) := by
  have hInv := reachable_inv s hs
  refine ⟨hInv.2.2, ?_, ?_, ?_⟩
  · intro s' hstep
    exact step_version_mono s s' hInv hstep
  · intro h r d k reg ops s' hreg hacc
    obtain ⟨hcount, hbump⟩ := access_bumps s h r d k reg ops s' hreg hacc
    exact ⟨hcount, hbump,
      access_attach s h r d k reg ops s' hInv.2.1 hreg hacc⟩
  · intro h r d reg opsP s' hreg hpre
    exact prefetch_bumps s h r d reg opsP s' hreg hpre

/-- Witness for C6 at the reachable sample state: its in-flight operations
are pairwise disjoint, and a concrete access from it counts exactly its one
batched operation. -/
theorem migration_exclusion_witness :
    List.Pairwise OpsDisjoint sampleEngine.inFlight ∧
    ∃ ops s', access sampleEngine 0 ⟨0, 8192⟩ 1 AccessKind.read = .ok (ops, s') ∧
      s'.profile.onDemandOps = sampleEngine.profile.onDemandOps + ops.length := by
  have hreach : Reachable sampleEngine :=
    Relation.ReflTransGen.single (Step.alloc Engine.init 8192 0 sampleEngine rfl)
  constructor
  · exact (migration_exclusion sampleEngine hreach).1
  · refine ⟨_, _, rfl, ?_⟩
    exact ((migration_exclusion sampleEngine hreach).2.2.1 0 ⟨0, 8192⟩ 1
      AccessKind.read _ _ _ rfl rfl).1

end GpuRepo
